import Mathlib

/-!
# aubio `fmat.c`: dense row-major matrices

A shallow embedding of `src/fmat.c` and the properties of its allocation,
element access, elementwise, copy and multiply operations.

Memory model.  A matrix record `fmat_t` holds its two dimensions, the array
of row pointers `data` and the single buffer that `data[0]` owns.  A row
pointer is modelled by its offset from the start of that buffer, so the C
expression `s->data[i][j]` reads cell `data[i] + j` of the buffer.  Every
array access is bounds checked: an access outside the row-pointer array or
outside the buffer (undefined behaviour in C) ends the run with
`Err.out_of_bounds`.  Distinct arguments are distinct objects (no aliasing).

Integers.  `uint_t` values are naturals below `2 ^ 32`; every product or sum
the source computes in `uint_t` is reduced modulo `2 ^ 32`.

Scalars.  The samples are elements of an arbitrary commutative ring `R` (exact
arithmetic).  The one place where the source lets `smpl_t` steer control, the
loop bound `FLOOR((smpl_t)s->length/2)` of `fmat_rev`, keeps the rounding of
the cast: a `uint_t` is rounded to `prec` significant bits, ties to even.
-/

namespace Aubio

/-! ## Machine integers -/

/-- Modelled from the spec: the modulus of `uint_t` arithmetic.  The typedef
of `uint_t` (an `unsigned int`) lives in `types.h`, which is not among the
sources; it is taken as 32 bits wide. -/
def UINT_MOD : Nat := 2 ^ 32

/-- The cast `(sint_t) x` of a `uint_t` value: two's complement
reinterpretation at the same width. -/
def toSint (x : Nat) : Int :=
  if x % UINT_MOD < UINT_MOD / 2 then (x % UINT_MOD : Nat) else (x % UINT_MOD : Nat) - (UINT_MOD : Int)

/-! ## Errors, diagnostics, bounds-checked memory -/

/-- Ways a run can stop early. -/
inductive Err where
  | assert_failed
  | out_of_bounds
  | diverges
  deriving DecidableEq, Repr

/-- One message handed to the logging sink: the format string and its
integer arguments. -/
structure Msg where
  fmt : String
  args : List Nat
  deriving DecidableEq, Repr

/-- Bounds-checked read `xs[i]`. -/
def rd {α : Type} (xs : List α) (i : Nat) : Except Err α :=
  match xs[i]? with
  | some v => .ok v
  | none => .error .out_of_bounds

/-- Bounds-checked write `xs[i] = v`. -/
def wr {α : Type} (xs : List α) (i : Nat) (v : α) : Except Err (List α) :=
  if i < xs.length then .ok (xs.set i v) else .error .out_of_bounds

/-- Helper of `forLoop`: runs `body i`, `body (i+1)`, ... for `fuel` rounds. -/
def forLoop.go {σ : Type} (body : Nat → σ → Except Err σ) : Nat → Nat → σ → Except Err σ
  | 0, _, s => .ok s
  | fuel + 1, i, s => body i s >>= forLoop.go body fuel (i + 1)

/-- The C loop `for (i = 0; i < n; i++) body`, threading the state `s`.
The counter never wraps: `n` is a `uint_t` value. -/
def forLoop {σ : Type} (n : Nat) (body : Nat → σ → Except Err σ) (s : σ) : Except Err σ :=
  forLoop.go body n 0 s

/-- Modelled from the spec: the macro `AUBIO_ASSERT(x)` of `aubio_priv.h`,
which is not among the sources; checked when assertions are compiled in
(`dbg`, a debug build), absent otherwise. -/
def AUBIO_ASSERT (dbg : Bool) (x : Bool) : Except Err Unit :=
  if dbg && !x then .error .assert_failed else .ok ()

/-- Modelled from the spec: the macro `AUBIO_ARRAY(type, n)` of
`aubio_priv.h`, which is not among the sources; a fresh array of `n` cells,
whose initial contents are the parameter `init`. -/
def AUBIO_ARRAY {α : Type} (init : Nat → α) (n : Nat) : List α :=
  (List.range n).map init

/-! ## Data model -/

/-- The record `fmat_t`: `height` rows, `length` columns, the row pointers
`data` (as offsets into the buffer) and the buffer `buf` owned by `data[0]`. -/
structure fmat_t (R : Type) where
  height : Nat
  length : Nat
  data : List Nat
  buf : List R
  deriving DecidableEq, Repr

/-- The record `fvec_t` of `fvec.h`: `length` and a buffer of samples. -/
structure fvec_t (R : Type) where
  length : Nat
  data : List R
  deriving DecidableEq, Repr

/-- A well-formed matrix.  It is laid out as `new_fmat` builds it: both
dimensions pass the guard (positive as `sint_t`), row `i` starts at the offset
`i * length` computed in `uint_t`, and the buffer has the cell count computed
in `uint_t`.  And it satisfies the invariant of the data model: the buffer
holds exactly `height * length` cells. -/
def fmat_t.WellFormed {R : Type} (m : fmat_t R) : Prop :=
  0 < m.height ∧ m.height < UINT_MOD / 2 ∧
  0 < m.length ∧ m.length < UINT_MOD / 2 ∧
  m.data = (List.range m.height).map (fun i => i * m.length % UINT_MOD) ∧
  m.buf.length = m.height * m.length % UINT_MOD ∧
  m.buf.length = m.height * m.length

instance {R : Type} (m : fmat_t R) : Decidable m.WellFormed := by
  unfold fmat_t.WellFormed; infer_instance

/-- A vector whose buffer holds exactly `length` samples. -/
def fvec_t.WellFormed {R : Type} (v : fvec_t R) : Prop :=
  v.data.length = v.length

instance {R : Type} (v : fvec_t R) : Decidable v.WellFormed := by
  unfold fvec_t.WellFormed; infer_instance

/-! ## `new_fmat` -/

/-- The function `new_fmat`: `none` is the `NULL` result. -/
def new_fmat {R : Type} (init : Nat → R) (height length : Nat) : Option (fmat_t R) :=
  if toSint height ≤ 0 ∨ toSint length ≤ 0 then none
  else
    -- s->data = AUBIO_ARRAY(smpl_t*, s->height);
    let rows : List Nat := AUBIO_ARRAY (fun _ => 0) height
    -- s->data[0] = AUBIO_ARRAY(smpl_t, s->height * s->length);
    let buf : List R := AUBIO_ARRAY init (height * length % UINT_MOD)
    let rows := rows.set 0 0
    -- for (i = 1; i < s->height; i++) s->data[i] = s->data[0] + i * s->length;
    let rows := (List.range' 1 (height - 1)).foldl
      (fun rows i => rows.set i (0 + i * length % UINT_MOD)) rows
    some { height := height, length := length, data := rows, buf := buf }

/-! ## Element access -/

/-- The function `fmat_get_sample`: `s->data[channel][position]`. -/
def fmat_get_sample {R : Type} (s : fmat_t R) (channel position : Nat) : Except Err R := do
  let row ← rd s.data channel
  rd s.buf (row + position)

/-- The function `fmat_set_sample`: `s->data[channel][position] = data`. -/
def fmat_set_sample {R : Type} (s : fmat_t R) (data : R) (channel position : Nat) :
    Except Err (fmat_t R) := do
  let row ← rd s.data channel
  let buf ← wr s.buf (row + position) data
  pure { s with buf := buf }

/-- The value of a run that ended normally (`0` for a run that did not). -/
def valOf {R : Type} [Zero R] : Except Err R → R
  | .ok v => v
  | .error _ => 0

/-- The entry `M[i][j]` as `fmat_get_sample` reads it. -/
def fmat_t.at {R : Type} [Zero R] (m : fmat_t R) (i j : Nat) : R :=
  valOf (fmat_get_sample m i j)

/-- The entry `v[j]` of a vector. -/
def fvec_t.at {R : Type} [Zero R] (v : fvec_t R) (j : Nat) : R :=
  valOf (rd v.data j)

/-! ## Copy -/

/-- The libc routine `memcpy(dst + doff, src + soff, n * sizeof(smpl_t))`:
cell by cell, `n` cells. -/
def memcpy {R : Type} (dst : List R) (doff : Nat) (src : List R) (soff : Nat) (n : Nat) :
    Except Err (List R) :=
  forLoop n (fun i dst => do
    let v ← rd src (soff + i)
    wr dst (doff + i) v) dst

/-- The function `fmat_copy(s, t)`.  `hacks` is the build flag
`HAVE_MEMCPY_HACKS`.  The C function returns `void`: the result is the
destination after the call and the messages passed to `AUBIO_ERR`. -/
def fmat_copy {R : Type} (hacks : Bool) (s t : fmat_t R) :
    Except Err (Unit × fmat_t R × List Msg) :=
  if s.height ≠ t.height then
    .ok ((), t, [⟨"trying to copy %d rows to %d rows \n", [s.height, t.height]⟩])
  else if s.length ≠ t.length then
    .ok ((), t, [⟨"trying to copy %d columns to %d columns\n", [s.length, t.length]⟩])
  else if hacks then do
    let t ← forLoop s.height (fun i t => do
      let trow ← rd t.data i
      let srow ← rd s.data i
      let buf ← memcpy t.buf trow s.buf srow t.length
      pure { t with buf := buf }) t
    pure ((), t, [])
  else do
    let t ← forLoop t.height (fun i t =>
      forLoop t.length (fun j t => do
        let srow ← rd s.data i
        let v ← rd s.buf (srow + j)
        let trow ← rd t.data i
        let buf ← wr t.buf (trow + j) v
        pure { t with buf := buf }) t) t
    pure ((), t, [])

/-! ## Multiplication -/

/-- Modelled from the spec: `fvec_zeros` of `fvec.c`, which is not among the
sources; the vector's zero-fill operation, writing `0` to each of its
`length` samples. -/
def fvec_zeros {R : Type} [Zero R] (s : fvec_t R) : Except Err (fvec_t R) :=
  forLoop s.length (fun j s => do
    let d ← wr s.data j 0
    pure { s with data := d }) s

/-- Modelled from the spec: the vendor routine `vDSP_dotpr(A, IA, B, IB, C, N)`
behind `aubio_vDSP_dotpr`, as the exact sum of the `N` products
`A[n * IA] * B[n * IB]`; `A` and `B` are pointers (buffer and offset) and
the sum is the value stored to `*C`. -/
def aubio_vDSP_dotpr {R : Type} [Zero R] [Add R] [Mul R]
    (A : List R) (aoff IA : Nat) (B : List R) (boff IB : Nat) (N : Nat) : Except Err R :=
  forLoop N (fun n acc => do
    let x ← rd A (aoff + n * IA)
    let y ← rd B (boff + n * IB)
    pure (acc + x * y)) 0

/-- The function `fmat_vecmul`, reference branch (neither `HAVE_ACCELERATE`
nor `HAVE_BLAS`). -/
def fmat_vecmul_reference {R : Type} [Zero R] [Add R] [Mul R] (dbg : Bool)
    (s : fmat_t R) (scale output : fvec_t R) : Except Err (fvec_t R) := do
  AUBIO_ASSERT dbg (s.height == output.length)
  AUBIO_ASSERT dbg (s.length == scale.length)
  let output ← fvec_zeros output
  forLoop s.length (fun j output =>
    forLoop s.height (fun k output => do
      let x ← rd scale.data j
      let row ← rd s.data k
      let y ← rd s.buf (row + j)
      let o ← rd output.data k
      let d ← wr output.data k (o + x * y)
      pure { output with data := d }) output) output

/-- The function `fmat_vecmul`, `HAVE_ACCELERATE` branch (without `HAVE_BLAS`):
one dot product per row.  This branch has no assertion. -/
def fmat_vecmul_accelerate {R : Type} [Zero R] [Add R] [Mul R]
    (s : fmat_t R) (scale output : fvec_t R) : Except Err (fvec_t R) :=
  forLoop s.height (fun k output => do
    let row ← rd s.data k
    let v ← aubio_vDSP_dotpr scale.data 0 1 s.buf row 1 s.length
    let d ← wr output.data k v
    pure { output with data := d }) output

/-- The function `fvec_matmul`, reference branch. -/
def fvec_matmul_reference {R : Type} [Zero R] [Add R] [Mul R] (dbg : Bool)
    (scale : fvec_t R) (s : fmat_t R) (output : fvec_t R) : Except Err (fvec_t R) := do
  AUBIO_ASSERT dbg (s.height == scale.length)
  AUBIO_ASSERT dbg (s.length == output.length)
  let output ← fvec_zeros output
  forLoop s.height (fun k output =>
    forLoop s.length (fun j output => do
      let row ← rd s.data k
      let y ← rd s.buf (row + j)
      let x ← rd scale.data k
      let o ← rd output.data j
      let d ← wr output.data j (o + y * x)
      pure { output with data := d }) output) output

/-- The function `fvec_matmul`, `HAVE_ACCELERATE` branch (without `HAVE_BLAS`):
for each row `k`, a dot product of `scale->length` terms stored to
`output->data[k]`. -/
def fvec_matmul_accelerate {R : Type} [Zero R] [Add R] [Mul R] (dbg : Bool)
    (scale : fvec_t R) (s : fmat_t R) (output : fvec_t R) : Except Err (fvec_t R) := do
  AUBIO_ASSERT dbg (s.height == scale.length)
  AUBIO_ASSERT dbg (s.length == output.length)
  forLoop s.height (fun k output => do
    let row ← rd s.data k
    let v ← aubio_vDSP_dotpr scale.data 0 1 s.buf row 1 scale.length
    let d ← wr output.data k v
    pure { output with data := d }) output

/-- The function `fmat_matmul`, reference branch (no `HAVE_BLAS`).  The flat
indices `i * length + k` are `uint_t` expressions. -/
def fmat_matmul_reference {R : Type} [Zero R] [Add R] [Mul R] (dbg : Bool)
    (a b c : fmat_t R) : Except Err (fmat_t R) := do
  AUBIO_ASSERT dbg (a.height == c.height)
  AUBIO_ASSERT dbg (a.length == b.height)
  AUBIO_ASSERT dbg (b.length == c.length)
  forLoop c.height (fun i c =>
    forLoop c.length (fun j c => do
      let sum ← forLoop a.length (fun k sum => do
        let a0 ← rd a.data 0
        let x ← rd a.buf (a0 + (i * a.length + k) % UINT_MOD)
        let b0 ← rd b.data 0
        let y ← rd b.buf (b0 + (k * b.length + j) % UINT_MOD)
        pure (sum + x * y)) 0
      let c0 ← rd c.data 0
      let buf ← wr c.buf (c0 + (i * c.length + j) % UINT_MOD) sum
      pure { c with buf := buf }) c) c


/-! ## Channel view -/

/-- The function `fmat_get_channel`: `output` becomes a view of row `channel`.
The pointer `s->data[channel]` stored in `output->data` is modelled by the
cells it addresses, the buffer from the row start on. -/
def fmat_get_channel {R : Type} (s : fmat_t R) (channel : Nat) (output : fvec_t R) :
    Except Err (fvec_t R) := do
  let row ← rd s.data channel
  let output := { output with data := s.buf.drop row }
  pure { output with length := s.length }

/-! ## Elementwise operations -/

/-- The function `fmat_set`. -/
def fmat_set {R : Type} (s : fmat_t R) (val : R) : Except Err (fmat_t R) :=
  forLoop s.height (fun i s =>
    forLoop s.length (fun j s => do
      let row ← rd s.data i
      let buf ← wr s.buf (row + j) val
      pure { s with buf := buf }) s) s

/-- The libc routine `memset(dst + doff, 0, n * sizeof(smpl_t))`, cell by cell:
the all-zero byte pattern is the sample `0`. -/
def memset {R : Type} [Zero R] (dst : List R) (doff n : Nat) : Except Err (List R) :=
  forLoop n (fun i dst => wr dst (doff + i) 0) dst

/-- The function `fmat_zeros`; `hacks` is the build flag `HAVE_MEMCPY_HACKS`. -/
def fmat_zeros {R : Type} [Zero R] (hacks : Bool) (s : fmat_t R) : Except Err (fmat_t R) :=
  if hacks then
    forLoop s.height (fun i s => do
      let row ← rd s.data i
      let buf ← memset s.buf row s.length
      pure { s with buf := buf }) s
  else
    fmat_set s 0

/-- The function `fmat_ones`. -/
def fmat_ones {R : Type} [One R] (s : fmat_t R) : Except Err (fmat_t R) :=
  fmat_set s 1

/-- The `uint_t` subtraction `a - b`. -/
def usub (a b : Nat) : Nat :=
  (a % UINT_MOD + UINT_MOD - b % UINT_MOD) % UINT_MOD

/-- Helper of `forLoopWhile`: at most `fuel` tests of the loop condition. -/
def forLoopWhile.go {σ : Type} (cond : Nat → Bool) (body : Nat → σ → Except Err σ) :
    Nat → Nat → σ → Except Err σ
  | 0, _, _ => .error .diverges
  | fuel + 1, j, s =>
    if cond j then body j s >>= forLoopWhile.go cond body fuel (j + 1) else .ok s

/-- The C loop `for (j = 0; cond(j); j++) body` with a `uint_t` counter: the
condition is tested before every round.  After `2 ^ 32` passed tests the
counter would wrap and the loop start again: such a run is `Err.diverges`. -/
def forLoopWhile {σ : Type} (cond : Nat → Bool) (body : Nat → σ → Except Err σ) (s : σ) :
    Except Err σ :=
  forLoopWhile.go cond body UINT_MOD 0 s

/-- Helper of `smpl_of_uint`: the least `e` from the given one on with
`n / 2 ^ e < 2 ^ prec`. -/
def smpl_exponent (prec n : Nat) : Nat → Nat → Nat
  | 0, e => e
  | fuel + 1, e => if n / 2 ^ e < 2 ^ prec then e else smpl_exponent prec n fuel (e + 1)

/-- Modelled from the spec: the cast `(smpl_t) n` of a `uint_t` value.  The
typedef of `smpl_t` lives in `types.h`, which is not among the sources; it is a
binary floating-point type, and the number of its significant bits is the
parameter `prec` (24 for `float`, 53 for `double`).  The cast gives the nearest
value with `prec` significant bits, ties to even; that value is an integer. -/
def smpl_of_uint (prec n : Nat) : Nat :=
  let e := smpl_exponent prec n 32 0
  let q := n / 2 ^ e
  let r := n % 2 ^ e
  if 2 * r < 2 ^ e then q * 2 ^ e
  else if 2 * r = 2 ^ e ∧ q % 2 = 0 then q * 2 ^ e
  else (q + 1) * 2 ^ e

/-- Modelled from the spec: the loop bound `FLOOR((smpl_t)s->length/2)` of
`fmat_rev`; `FLOOR` is a macro of `aubio_priv.h`, which is not among the
sources.  The length is cast to `smpl_t`, halved (exact in binary floating
point) and rounded down. -/
def FLOOR_half (prec length : Nat) : Nat :=
  smpl_of_uint prec length / 2

/-- Modelled from the spec: the macro `ELEM_SWAP(a, b)` of `aubio_priv.h`, which
is not among the sources; it swaps the two cells `a` and `b` through a
temporary (`t = a; a = b; b = t`). -/
def ELEM_SWAP {R : Type} (buf : List R) (a b : Nat) : Except Err (List R) := do
  let t ← rd buf a
  let v ← rd buf b
  let buf ← wr buf a v
  wr buf b t

/-- The function `fmat_rev`, for an `smpl_t` with `prec` significant bits.  In
the test `j < FLOOR((smpl_t)s->length/2)` the counter `j` is converted to
`smpl_t` as well. -/
def fmat_rev {R : Type} (prec : Nat) (s : fmat_t R) : Except Err (fmat_t R) :=
  forLoop s.height (fun i s =>
    forLoopWhile (fun j => decide (smpl_of_uint prec j < FLOOR_half prec s.length))
      (fun j s => do
        let row ← rd s.data i
        let buf ← ELEM_SWAP s.buf (row + j) (row + usub (usub s.length 1) j)
        pure { s with buf := buf }) s) s

/-- Whether the cell at position `j` of a row of `l` cells has been exchanged
with its mirror `l - 1 - j` after the swaps of the rounds `0 .. n - 1`: exactly
one of the two positions is below `n`. -/
def rev_moved (n l j : Nat) : Prop :=
  (j < n ∧ n ≤ l - 1 - j) ∨ (l - 1 - j < n ∧ n ≤ j)

instance (n l j : Nat) : Decidable (rev_moved n l j) := by
  unfold rev_moved; infer_instance

/-- The number of rounds of the swap loop on a row of `l` cells: the first
counter value at which the test `j < FLOOR((smpl_t)l/2)` fails. -/
def IsRevCount (prec l n : Nat) : Prop :=
  (∀ j, j < n → decide (smpl_of_uint prec j < FLOOR_half prec l) = true) ∧
    decide (smpl_of_uint prec n < FLOOR_half prec l) = false

/-- Modelled from the spec: the macro `MIN(a, b)` of `aubio_priv.h`, which is
not among the sources; the smaller of its two arguments. -/
def MIN (a b : Nat) : Nat :=
  if a < b then a else b

/-- The function `fmat_weight`: only row 0 of `weight` is read. -/
def fmat_weight {R : Type} [Mul R] (s weight : fmat_t R) : Except Err (fmat_t R) :=
  let length := MIN s.length weight.length
  forLoop s.height (fun i s =>
    forLoop length (fun j s => do
      let row ← rd s.data i
      let x ← rd s.buf (row + j)
      let w0 ← rd weight.data 0
      let w ← rd weight.buf (w0 + j)
      let buf ← wr s.buf (row + j) (x * w)
      pure { s with buf := buf }) s) s

/-- The frame every operation keeps: dimensions, row pointers and buffer
size of `c'` are those of `c`. -/
def SameShape {R : Type} (c c' : fmat_t R) : Prop :=
  c'.height = c.height ∧ c'.length = c.length ∧ c'.data = c.data ∧
    c'.buf.length = c.buf.length

/-! ## Sample inputs -/

/-- The matrix `[[1,2],[3,4]]`. -/
def ex_A : fmat_t ℤ := ⟨2, 2, [0, 2], [1, 2, 3, 4]⟩

/-- The matrix `[[5,6],[7,8]]`. -/
def ex_B : fmat_t ℤ := ⟨2, 2, [0, 2], [5, 6, 7, 8]⟩

/-- A 2 x 2 destination holding other values. -/
def ex_C : fmat_t ℤ := ⟨2, 2, [0, 2], [9, 9, 9, 9]⟩

/-- The matrix `[[1,2],[3,4]]`. -/
def ex_M : fmat_t ℤ := ⟨2, 2, [0, 2], [1, 2, 3, 4]⟩

/-- The 2 x 3 matrix `[[1,2,3],[4,5,6]]`. -/
def ex_M23 : fmat_t ℤ := ⟨2, 3, [0, 3], [1, 2, 3, 4, 5, 6]⟩

/-- The vector `[1,1]`. -/
def ex_scale : fvec_t ℤ := ⟨2, [1, 1]⟩

/-- A destination vector of length 2 holding other values. -/
def ex_out : fvec_t ℤ := ⟨2, [9, 9]⟩

/-- A destination vector of length 3 holding other values. -/
def ex_out3 : fvec_t ℤ := ⟨3, [9, 9, 9]⟩

theorem ok_bind {α β : Type} (a : α) (f : α → Except Err β) :
    ((Except.ok a : Except Err α) >>= f) = f a := rfl

theorem forLoop_go_succ {σ : Type} (body : Nat → σ → Except Err σ) (n i : Nat) (s : σ) :
    forLoop.go body (n + 1) i s = forLoop.go body n i s >>= body (i + n) := by
  induction n generalizing i s with
  | zero =>
    show body i s >>= forLoop.go body 0 (i + 1) = body i s
    cases body i s <;> rfl
  | succ n ih =>
    show body i s >>= forLoop.go body (n + 1) (i + 1)
      = (body i s >>= forLoop.go body n (i + 1)) >>= body (i + (n + 1))
    cases h : body i s with
    | error e => rfl
    | ok s1 =>
      show forLoop.go body (n + 1) (i + 1) s1 = forLoop.go body n (i + 1) s1 >>= body (i + (n + 1))
      rw [ih, show i + 1 + n = i + (n + 1) by omega]

theorem forLoop_zero {σ : Type} (body : Nat → σ → Except Err σ) (s : σ) :
    forLoop 0 body s = .ok s := rfl

theorem forLoop_succ {σ : Type} (body : Nat → σ → Except Err σ) (n : Nat) (s : σ) :
    forLoop (n + 1) body s = forLoop n body s >>= body n := by
  unfold forLoop
  rw [forLoop_go_succ, Nat.zero_add]

/-- Invariant rule for `forLoop`: the loop ends normally and the invariant
holds at exit. -/
theorem forLoop_inv {σ : Type} (P : Nat → σ → Prop) (n : Nat)
    (body : Nat → σ → Except Err σ) (s : σ) (h0 : P 0 s)
    (hstep : ∀ i, i < n → ∀ s, P i s → ∃ s', body i s = .ok s' ∧ P (i + 1) s') :
    ∃ s', forLoop n body s = .ok s' ∧ P n s' := by
  induction n with
  | zero => exact ⟨s, rfl, h0⟩
  | succ n ih =>
    obtain ⟨s1, h1, hP1⟩ := ih (fun i hi => hstep i (Nat.lt_succ_of_lt hi))
    obtain ⟨s2, h2, hP2⟩ := hstep n (Nat.lt_succ_self n) s1 hP1
    exact ⟨s2, by rw [forLoop_succ, h1, ok_bind, h2], hP2⟩

theorem rd_eq_ok {α : Type} {xs : List α} {i : Nat} {v : α} (h : xs[i]? = some v) :
    rd xs i = .ok v := by
  simp [rd, h]

theorem rd_ok_of_lt {α : Type} (xs : List α) (i : Nat) (h : i < xs.length) :
    rd xs i = .ok (xs.get ⟨i, h⟩) := by
  simp [rd, List.getElem?_eq_getElem h]

theorem wr_ok {α : Type} (xs : List α) (i : Nat) (v : α) (h : i < xs.length) :
    wr xs i v = .ok (xs.set i v) := by
  simp [wr, h]


/-- A loop whose body adds `f k` to the accumulator computes the sum. -/
theorem forLoop_sum {R : Type} [CommRing R] (f : Nat → R) (n : Nat)
    (body : Nat → R → Except Err R) (a0 : R)
    (hbody : ∀ k, k < n → ∀ acc, body k acc = .ok (acc + f k)) :
    forLoop n body a0 = .ok (a0 + ∑ k in Finset.range n, f k) := by
  obtain ⟨r, hr, hP⟩ := forLoop_inv (fun k acc => acc = a0 + ∑ k' in Finset.range k, f k') n body a0
    (by simp) (fun k hk acc hacc => ⟨acc + f k, hbody k hk acc, by
      have hacc' : acc = a0 + ∑ k' in Finset.range k, f k' := hacc
      show acc + f k = a0 + ∑ k' in Finset.range (k + 1), f k'
      rw [hacc', Finset.sum_range_succ, add_assoc]⟩)
  rw [hr, hP]

/-! ## Well-formed matrices -/

theorem fmat_t.WellFormed.height_pos {R : Type} {m : fmat_t R} (hm : m.WellFormed) :
    0 < m.height := hm.1

theorem fmat_t.WellFormed.length_pos {R : Type} {m : fmat_t R} (hm : m.WellFormed) :
    0 < m.length := hm.2.2.1

theorem fmat_t.WellFormed.data_def {R : Type} {m : fmat_t R} (hm : m.WellFormed) :
    m.data = (List.range m.height).map (fun i => i * m.length % UINT_MOD) := hm.2.2.2.2.1

theorem fmat_t.WellFormed.buf_length {R : Type} {m : fmat_t R} (hm : m.WellFormed) :
    m.buf.length = m.height * m.length := hm.2.2.2.2.2.2

/-- The cell count of a well-formed matrix fits `uint_t`. -/
theorem fmat_t.WellFormed.fits {R : Type} {m : fmat_t R} (hm : m.WellFormed) :
    m.height * m.length < UINT_MOD := by
  have h1 := hm.2.2.2.2.2.1
  rw [hm.2.2.2.2.2.2] at h1
  rw [h1]
  exact Nat.mod_lt _ (by decide)

theorem flat_index_lt {h l i j : Nat} (hi : i < h) (hj : j < l) : i * l + j < h * l := by
  have h1 : (i + 1) * l ≤ h * l := Nat.mul_le_mul_right _ hi
  rw [Nat.add_mul, Nat.one_mul] at h1
  omega

theorem fmat_t.WellFormed.idx_lt {R : Type} {m : fmat_t R} (hm : m.WellFormed) {i j : Nat}
    (hi : i < m.height) (hj : j < m.length) : i * m.length + j < m.buf.length := by
  rw [hm.buf_length]; exact flat_index_lt hi hj

theorem fmat_t.WellFormed.idx_mod {R : Type} {m : fmat_t R} (hm : m.WellFormed) {i j : Nat}
    (hi : i < m.height) (hj : j < m.length) :
    (i * m.length + j) % UINT_MOD = i * m.length + j :=
  Nat.mod_eq_of_lt (lt_trans (flat_index_lt hi hj) hm.fits)

theorem fmat_t.WellFormed.row {R : Type} {m : fmat_t R} (hm : m.WellFormed) {i : Nat}
    (hi : i < m.height) : rd m.data i = .ok (i * m.length) := by
  apply rd_eq_ok
  rw [hm.data_def]
  have h0 := hm.idx_mod hi hm.length_pos
  have h1 : i * m.length % UINT_MOD = i * m.length := by
    simpa using h0
  simp [List.getElem?_map, List.getElem?_range hi, h1]

theorem fmat_t.WellFormed.row_zero {R : Type} {m : fmat_t R} (hm : m.WellFormed) :
    rd m.data 0 = .ok 0 := by
  simpa using hm.row hm.height_pos

/-- On a well-formed matrix `fmat_get_sample` reads the flat cell
`channel * length + position`. -/
theorem fmat_get_sample_eq {R : Type} {m : fmat_t R} (hm : m.WellFormed) {i j : Nat}
    (hi : i < m.height) (hj : j < m.length) :
    fmat_get_sample m i j = .ok (m.buf.get ⟨i * m.length + j, hm.idx_lt hi hj⟩) := by
  unfold fmat_get_sample
  rw [hm.row hi, ok_bind, rd_ok_of_lt]

theorem fmat_t.WellFormed.rd_buf {R : Type} [Zero R] {m : fmat_t R} (hm : m.WellFormed)
    {i j : Nat} (hi : i < m.height) (hj : j < m.length) :
    rd m.buf (i * m.length + j) = .ok (m.at i j) := by
  rw [fmat_t.at, fmat_get_sample_eq hm hi hj, rd_ok_of_lt _ _ (hm.idx_lt hi hj)]
  rfl

theorem fmat_t.WellFormed.get_sample {R : Type} [Zero R] {m : fmat_t R} (hm : m.WellFormed)
    {i j : Nat} (hi : i < m.height) (hj : j < m.length) :
    fmat_get_sample m i j = .ok (m.at i j) := by
  rw [fmat_t.at, fmat_get_sample_eq hm hi hj]
  rfl


theorem SameShape.refl {R : Type} (c : fmat_t R) : SameShape c c := ⟨rfl, rfl, rfl, rfl⟩

theorem SameShape.wellFormed {R : Type} {c c' : fmat_t R} (h : SameShape c c')
    (hc : c.WellFormed) : c'.WellFormed := by
  obtain ⟨h1, h2, h3, h4⟩ := h
  unfold fmat_t.WellFormed at hc ⊢
  rw [h1, h2, h3, h4]; exact hc

theorem flat_index_div {l i j : Nat} (hj : j < l) : (i * l + j) / l = i := by
  have hl : 0 < l := by omega
  rw [Nat.mul_comm, Nat.mul_add_div hl, Nat.div_eq_of_lt hj, Nat.add_zero]

theorem flat_index_mod {l i j : Nat} (hj : j < l) : (i * l + j) % l = j := by
  rw [Nat.mul_comm, Nat.mul_add_mod, Nat.mod_eq_of_lt hj]

/-- Two nested loops over the rows and columns of a well-formed matrix, whose
body stores `F i j` in cell `(i, j)`, end normally with every cell holding
its `F` value and the shape kept. -/
theorem fill_loop {R : Type} (c : fmat_t R) (hc : c.WellFormed) (F : Nat → Nat → R)
    (body : Nat → Nat → fmat_t R → Except Err (fmat_t R))
    (hbody : ∀ i j c', i < c.height → j < c.length → SameShape c c' →
      body i j c' = .ok { c' with buf := c'.buf.set (i * c.length + j) (F i j) }) :
    ∃ c', forLoop c.height (fun i c1 => forLoop c1.length (fun j c2 => body i j c2) c1) c
        = .ok c' ∧ SameShape c c' ∧
      ∀ i j, i < c.height → j < c.length → c'.buf[i * c.length + j]? = some (F i j) := by
  have hl : 0 < c.length := hc.length_pos
  have key := forLoop_inv
    (fun i c' => SameShape c c' ∧
      ∀ p, p < i * c.length → c'.buf[p]? = some (F (p / c.length) (p % c.length)))
    c.height (fun i c1 => forLoop c1.length (fun j c2 => body i j c2) c1) c
    ⟨SameShape.refl c, fun p hp => by simp at hp⟩
    (fun i hi c1 hP => by
      obtain ⟨hs1, hv1⟩ := hP
      have inner := forLoop_inv
        (fun j c' => SameShape c c' ∧
          ∀ p, p < i * c.length + j → c'.buf[p]? = some (F (p / c.length) (p % c.length)))
        c.length (fun j c2 => body i j c2) c1
        ⟨hs1, fun p hp => hv1 p (by simpa using hp)⟩
        (fun j hj c2 hQ => by
          obtain ⟨hs2, hv2⟩ := hQ
          refine ⟨_, hbody i j c2 hi hj hs2, ⟨hs2.1, hs2.2.1, hs2.2.2.1, ?_⟩, ?_⟩
          · simp [hs2.2.2.2]
          · intro p hp
            have hlt : i * c.length + j < c2.buf.length := by
              rw [hs2.2.2.2]; exact hc.idx_lt hi hj
            show (c2.buf.set (i * c.length + j) (F i j))[p]? = _
            by_cases hpe : p = i * c.length + j
            · subst hpe
              rw [List.getElem?_set_self hlt, flat_index_div hj, flat_index_mod hj]
            · rw [List.getElem?_set_ne (Ne.symm hpe)]
              exact hv2 p (by omega))
      obtain ⟨c2, h2, hs2, hv2⟩ := inner
      refine ⟨c2, ?_, hs2, fun p hp => hv2 p (by rw [Nat.add_mul, Nat.one_mul] at hp; exact hp)⟩
      show forLoop c1.length _ c1 = _
      rw [hs1.2.1]; exact h2)
  obtain ⟨c', h1, hs, hv⟩ := key
  refine ⟨c', h1, hs, fun i j hi hj => ?_⟩
  have := hv (i * c.length + j) (flat_index_lt hi hj)
  rwa [flat_index_div hj, flat_index_mod hj] at this


theorem AUBIO_ASSERT_ok (dbg : Bool) {x y : Nat} (h : x = y) :
    AUBIO_ASSERT dbg (x == y) = .ok () := by
  simp [AUBIO_ASSERT, h]

theorem unit_bind {β : Type} (f : Unit → Except Err β) :
    ((Except.ok () : Except Err Unit) >>= f) = f () := rfl

/-- The reference `fmat_matmul` in full: it ends normally, keeps the shape of
`c` and leaves the product in it. -/
theorem fmat_matmul_reference_run {R : Type} [CommRing R] (dbg : Bool) (a b c : fmat_t R)
    (ha : a.WellFormed) (hb : b.WellFormed) (hc : c.WellFormed)
    (h1 : a.height = c.height) (h2 : a.length = b.height) (h3 : b.length = c.length) :
    ∃ c', fmat_matmul_reference dbg a b c = .ok c' ∧ SameShape c c' ∧
      ∀ i j, i < c.height → j < c.length →
        c'.buf[i * c.length + j]? =
          some (∑ k in Finset.range a.length, a.at i k * b.at k j) := by
  obtain ⟨c', hrun, hs, hv⟩ := fill_loop c hc
    (fun i j => ∑ k in Finset.range a.length, a.at i k * b.at k j)
    (fun i j c => do
      let sum ← forLoop a.length (fun k sum => do
        let a0 ← rd a.data 0
        let x ← rd a.buf (a0 + (i * a.length + k) % UINT_MOD)
        let b0 ← rd b.data 0
        let y ← rd b.buf (b0 + (k * b.length + j) % UINT_MOD)
        pure (sum + x * y)) 0
      let c0 ← rd c.data 0
      let buf ← wr c.buf (c0 + (i * c.length + j) % UINT_MOD) sum
      pure { c with buf := buf })
    (fun i j c' hi hj hs => by
      have hc' := hs.wellFormed hc
      have hi' : i < c'.height := by rw [hs.1]; exact hi
      have hj' : j < c'.length := by rw [hs.2.1]; exact hj
      have hsum := forLoop_sum (fun k => a.at i k * b.at k j) a.length
        (fun k sum => do
          let a0 ← rd a.data 0
          let x ← rd a.buf (a0 + (i * a.length + k) % UINT_MOD)
          let b0 ← rd b.data 0
          let y ← rd b.buf (b0 + (k * b.length + j) % UINT_MOD)
          pure (sum + x * y)) 0
        (fun k hk acc => by
          have hia : i < a.height := by rw [h1]; exact hi
          have hkb : k < b.height := by rw [← h2]; exact hk
          have hjb : j < b.length := by rw [h3]; exact hj
          show (rd a.data 0 >>= fun a0 => rd a.buf (a0 + (i * a.length + k) % UINT_MOD) >>= fun x =>
            rd b.data 0 >>= fun b0 => rd b.buf (b0 + (k * b.length + j) % UINT_MOD) >>= fun y =>
              pure (acc + x * y)) = _
          rw [ha.row_zero, ok_bind, ha.idx_mod hia hk, Nat.zero_add, ha.rd_buf hia hk, ok_bind,
            hb.row_zero, ok_bind, hb.idx_mod hkb hjb, Nat.zero_add, hb.rd_buf hkb hjb, ok_bind]
          rfl)
      show (forLoop a.length _ 0 >>= fun sum => rd c'.data 0 >>= fun c0 =>
        wr c'.buf (c0 + (i * c'.length + j) % UINT_MOD) sum >>= fun buf =>
          pure { c' with buf := buf }) = _
      rw [hsum, ok_bind, hc'.row_zero, ok_bind, hc'.idx_mod hi' hj', Nat.zero_add,
        wr_ok _ _ _ (hc'.idx_lt hi' hj'), ok_bind, zero_add, hs.2.1]
      rfl)
  refine ⟨c', ?_, hs, hv⟩
  unfold fmat_matmul_reference
  rw [AUBIO_ASSERT_ok dbg h1, unit_bind, AUBIO_ASSERT_ok dbg h2, unit_bind,
    AUBIO_ASSERT_ok dbg h3, unit_bind]
  exact hrun

/-- Reading a cell of a matrix that kept the shape of a well-formed one. -/
theorem SameShape.get_sample_ok {R : Type} {c c' : fmat_t R} (hs : SameShape c c')
    (hc : c.WellFormed) {i j : Nat} (hi : i < c.height) {v : R}
    (hv : c'.buf[i * c.length + j]? = some v) : fmat_get_sample c' i j = .ok v := by
  have hc' := hs.wellFormed hc
  have hi' : i < c'.height := by rw [hs.1]; exact hi
  unfold fmat_get_sample
  rw [hc'.row hi', ok_bind, hs.2.1]
  exact rd_eq_ok hv


/-! ## Loops over a vector -/

/-- A loop over the first `n` samples of a vector whose body replaces sample
`k`, holding `x`, by `G k x`: it ends normally, the first `n` samples are
updated and the others kept. -/
theorem vec_loop {R : Type} (n : Nat) (out : fvec_t R) (hn : n ≤ out.data.length)
    (G : Nat → R → R) (body : Nat → fvec_t R → Except Err (fvec_t R))
    (hbody : ∀ k o x, k < n → o.length = out.length → o.data.length = out.data.length →
      o.data[k]? = some x → body k o = .ok { o with data := o.data.set k (G k x) }) :
    ∃ o', forLoop n body out = .ok o' ∧ o'.length = out.length ∧
      o'.data.length = out.data.length ∧
      (∀ k x, k < n → out.data[k]? = some x → o'.data[k]? = some (G k x)) ∧
      (∀ k, n ≤ k → o'.data[k]? = out.data[k]?) := by
  have key := forLoop_inv
    (fun i o => o.length = out.length ∧ o.data.length = out.data.length ∧
      (∀ k x, k < i → out.data[k]? = some x → o.data[k]? = some (G k x)) ∧
      (∀ k, i ≤ k → o.data[k]? = out.data[k]?))
    n body out ⟨rfl, rfl, fun k x hk => by simp at hk, fun k _ => rfl⟩
    (fun i hi o hP => by
      obtain ⟨hl, hdl, hlo, hhi⟩ := hP
      have hi' : i < out.data.length := lt_of_lt_of_le hi hn
      have hx : o.data[i]? = some (out.data.get ⟨i, hi'⟩) := by
        rw [hhi i (le_refl i), List.getElem?_eq_getElem hi']; rfl
      refine ⟨_, hbody i o _ hi hl hdl hx, hl, ?_, ?_, ?_⟩
      · simp [hdl]
      · intro k x hk hkx
        show (o.data.set i _)[k]? = _
        by_cases hki : k = i
        · subst hki
          rw [List.getElem?_set_self (by rw [hdl]; exact hi')]
          rw [List.getElem?_eq_getElem hi'] at hkx
          injection hkx with hkx
          rw [← hkx]; rfl
        · rw [List.getElem?_set_ne (Ne.symm hki)]
          exact hlo k x (by omega) hkx
      · intro k hk
        show (o.data.set i _)[k]? = _
        rw [List.getElem?_set_ne (by omega)]
        exact hhi k (by omega))
  obtain ⟨o', h1, h2, h3, h4, h5⟩ := key
  exact ⟨o', h1, h2, h3, h4, h5⟩

/-- The zero-fill of a vector that holds its `length` samples. -/
theorem fvec_zeros_spec {R : Type} [Zero R] (v : fvec_t R) (hv : v.WellFormed) :
    ∃ v', fvec_zeros v = .ok v' ∧ v'.length = v.length ∧ v'.data.length = v.data.length ∧
      ∀ k, k < v.length → v'.data[k]? = some 0 := by
  obtain ⟨v', h1, h2, h3, h4, _⟩ := vec_loop v.length v (le_of_eq hv.symm) (fun _ _ => 0)
    (fun j s => do
      let d ← wr s.data j 0
      pure { s with data := d })
    (fun k o x hk _ hdl _ => by
      show (wr o.data k 0 >>= fun d => pure { o with data := d }) = _
      rw [wr_ok _ _ _ (by rw [hdl, hv]; exact hk)]; rfl)
  refine ⟨v', h1, h2, h3, fun k hk => ?_⟩
  have hk' : k < v.data.length := by rw [hv]; exact hk
  exact h4 k _ hk (List.getElem?_eq_getElem hk')

theorem fvec_t.WellFormed.rd_data {R : Type} [Zero R] {v : fvec_t R} (hv : v.WellFormed)
    {j : Nat} (hj : j < v.length) : rd v.data j = .ok (v.at j) := by
  have hj' : j < v.data.length := by rw [hv]; exact hj
  rw [fvec_t.at, rd_ok_of_lt _ _ hj']; rfl


/-! ## The multiply family on vectors -/

/-- The reference `fmat_vecmul` in full: it ends normally, keeps the shape
of `output` and leaves the row sums in it. -/
theorem fmat_vecmul_reference_run {R : Type} [CommRing R] (dbg : Bool)
    (s : fmat_t R) (scale output : fvec_t R)
    (hs : s.WellFormed) (hscale : scale.WellFormed) (hout : output.WellFormed)
    (h1 : output.length = s.height) (h2 : scale.length = s.length) :
    ∃ o', fmat_vecmul_reference dbg s scale output = .ok o' ∧ o'.length = output.length ∧
      o'.data.length = output.data.length ∧
      ∀ k, k < s.height →
        o'.data[k]? = some (∑ j in Finset.range s.length, scale.at j * s.at k j) := by
  obtain ⟨z, hz, hzl, hzd, hzv⟩ := fvec_zeros_spec output hout
  have key := forLoop_inv
    (fun j o => o.length = output.length ∧ o.data.length = output.data.length ∧
      ∀ k, k < s.height → o.data[k]? = some (∑ j' in Finset.range j, scale.at j' * s.at k j'))
    s.length
    (fun j output =>
      forLoop s.height (fun k output => do
        let x ← rd scale.data j
        let row ← rd s.data k
        let y ← rd s.buf (row + j)
        let o ← rd output.data k
        let d ← wr output.data k (o + x * y)
        pure { output with data := d }) output) z
    ⟨hzl, hzd, fun k hk => by simpa using hzv k (by rw [h1]; exact hk)⟩
    (fun j hj o hP => by
      obtain ⟨hl, hdl, hv⟩ := hP
      have hle : s.height ≤ o.data.length := by rw [hdl, hout, h1]
      obtain ⟨o', hrun, hl', hdl', hlo, _⟩ := vec_loop s.height o hle
        (fun k x => x + scale.at j * s.at k j)
        (fun k output => do
          let x ← rd scale.data j
          let row ← rd s.data k
          let y ← rd s.buf (row + j)
          let o ← rd output.data k
          let d ← wr output.data k (o + x * y)
          pure { output with data := d })
        (fun k o2 x hk _ hdl2 hx => by
          show (rd scale.data j >>= fun x => rd s.data k >>= fun row =>
            rd s.buf (row + j) >>= fun y => rd o2.data k >>= fun o =>
              wr o2.data k (o + x * y) >>= fun d => pure { o2 with data := d }) = _
          rw [hscale.rd_data (by rw [h2]; exact hj), ok_bind, hs.row hk, ok_bind,
            hs.rd_buf hk hj, ok_bind, rd_eq_ok hx, ok_bind,
            wr_ok _ _ _ (by rw [hdl2]; exact lt_of_lt_of_le hk hle), ok_bind]
          rfl)
      refine ⟨o', hrun, hl'.trans hl, hdl'.trans hdl, fun k hk => ?_⟩
      rw [hlo k _ hk (hv k hk), Finset.sum_range_succ])
  obtain ⟨o', hrun, hl, hdl, hv⟩ := key
  refine ⟨o', ?_, hl, hdl, hv⟩
  unfold fmat_vecmul_reference
  rw [AUBIO_ASSERT_ok dbg h1.symm, unit_bind, AUBIO_ASSERT_ok dbg h2.symm, unit_bind, hz, ok_bind]
  exact hrun

/-- The reference `fvec_matmul` in full: it ends normally, keeps the shape
of `output` and leaves the column sums in it. -/
theorem fvec_matmul_reference_run {R : Type} [CommRing R] (dbg : Bool)
    (scale : fvec_t R) (s : fmat_t R) (output : fvec_t R)
    (hs : s.WellFormed) (hscale : scale.WellFormed) (hout : output.WellFormed)
    (h1 : scale.length = s.height) (h2 : output.length = s.length) :
    ∃ o', fvec_matmul_reference dbg scale s output = .ok o' ∧ o'.length = output.length ∧
      o'.data.length = output.data.length ∧
      ∀ j, j < s.length →
        o'.data[j]? = some (∑ k in Finset.range s.height, scale.at k * s.at k j) := by
  obtain ⟨z, hz, hzl, hzd, hzv⟩ := fvec_zeros_spec output hout
  have key := forLoop_inv
    (fun k o => o.length = output.length ∧ o.data.length = output.data.length ∧
      ∀ j, j < s.length → o.data[j]? = some (∑ k' in Finset.range k, scale.at k' * s.at k' j))
    s.height
    (fun k output =>
      forLoop s.length (fun j output => do
        let row ← rd s.data k
        let y ← rd s.buf (row + j)
        let x ← rd scale.data k
        let o ← rd output.data j
        let d ← wr output.data j (o + y * x)
        pure { output with data := d }) output) z
    ⟨hzl, hzd, fun j hj => by simpa using hzv j (by rw [h2]; exact hj)⟩
    (fun k hk o hP => by
      obtain ⟨hl, hdl, hv⟩ := hP
      have hle : s.length ≤ o.data.length := by rw [hdl, hout, h2]
      obtain ⟨o', hrun, hl', hdl', hlo, _⟩ := vec_loop s.length o hle
        (fun j x => x + s.at k j * scale.at k)
        (fun j output => do
          let row ← rd s.data k
          let y ← rd s.buf (row + j)
          let x ← rd scale.data k
          let o ← rd output.data j
          let d ← wr output.data j (o + y * x)
          pure { output with data := d })
        (fun j o2 x hj _ hdl2 hx => by
          show (rd s.data k >>= fun row => rd s.buf (row + j) >>= fun y =>
            rd scale.data k >>= fun x => rd o2.data j >>= fun o =>
              wr o2.data j (o + y * x) >>= fun d => pure { o2 with data := d }) = _
          rw [hs.row hk, ok_bind, hs.rd_buf hk hj, ok_bind,
            hscale.rd_data (by rw [h1]; exact hk), ok_bind, rd_eq_ok hx, ok_bind,
            wr_ok _ _ _ (by rw [hdl2]; exact lt_of_lt_of_le hj hle), ok_bind]
          rfl)
      refine ⟨o', hrun, hl'.trans hl, hdl'.trans hdl, fun j hj => ?_⟩
      rw [hlo j _ hj (hv j hj), Finset.sum_range_succ, mul_comm (s.at k j)])
  obtain ⟨o', hrun, hl, hdl, hv⟩ := key
  refine ⟨o', ?_, hl, hdl, hv⟩
  unfold fvec_matmul_reference
  rw [AUBIO_ASSERT_ok dbg h1.symm, unit_bind, AUBIO_ASSERT_ok dbg h2.symm, unit_bind, hz, ok_bind]
  exact hrun

/-- The dot product of a vector with row `k` of a well-formed matrix. -/
theorem aubio_vDSP_dotpr_row {R : Type} [CommRing R] (s : fmat_t R) (scale : fvec_t R)
    (hs : s.WellFormed) (hscale : scale.WellFormed) (h2 : scale.length = s.length)
    {k : Nat} (hk : k < s.height) :
    aubio_vDSP_dotpr scale.data 0 1 s.buf (k * s.length) 1 s.length
      = .ok (∑ j in Finset.range s.length, scale.at j * s.at k j) := by
  unfold aubio_vDSP_dotpr
  rw [forLoop_sum (fun j => scale.at j * s.at k j) s.length _ 0, zero_add]
  intro j hj acc
  show (rd scale.data (0 + j * 1) >>= fun x => rd s.buf (k * s.length + j * 1) >>= fun y =>
    pure (acc + x * y)) = _
  rw [Nat.mul_one, Nat.zero_add, hscale.rd_data (by rw [h2]; exact hj), ok_bind,
    hs.rd_buf hk hj, ok_bind]
  rfl

/-- The `HAVE_ACCELERATE` branch of `fmat_vecmul` in full. -/
theorem fmat_vecmul_accelerate_run {R : Type} [CommRing R]
    (s : fmat_t R) (scale output : fvec_t R)
    (hs : s.WellFormed) (hscale : scale.WellFormed) (hout : output.WellFormed)
    (h1 : output.length = s.height) (h2 : scale.length = s.length) :
    ∃ o', fmat_vecmul_accelerate s scale output = .ok o' ∧ o'.length = output.length ∧
      o'.data.length = output.data.length ∧
      ∀ k, k < s.height →
        o'.data[k]? = some (∑ j in Finset.range s.length, scale.at j * s.at k j) := by
  have hle : s.height ≤ output.data.length := by rw [hout, h1]
  obtain ⟨o', hrun, hl, hdl, hlo, _⟩ := vec_loop s.height output hle
    (fun k _ => ∑ j in Finset.range s.length, scale.at j * s.at k j)
    (fun k output => do
      let row ← rd s.data k
      let v ← aubio_vDSP_dotpr scale.data 0 1 s.buf row 1 s.length
      let d ← wr output.data k v
      pure { output with data := d })
    (fun k o x hk _ hdl2 _ => by
      show (rd s.data k >>= fun row =>
        aubio_vDSP_dotpr scale.data 0 1 s.buf row 1 s.length >>= fun v =>
          wr o.data k v >>= fun d => pure { o with data := d }) = _
      rw [hs.row hk, ok_bind, aubio_vDSP_dotpr_row s scale hs hscale h2 hk, ok_bind,
        wr_ok _ _ _ (by rw [hdl2]; exact lt_of_lt_of_le hk hle), ok_bind]
      rfl)
  refine ⟨o', hrun, hl, hdl, fun k hk => ?_⟩
  have hk' : k < output.data.length := lt_of_lt_of_le hk hle
  exact hlo k _ hk (List.getElem?_eq_getElem hk')

theorem fvec_t.ext_of {R : Type} {o1 o2 : fvec_t R} (hl : o1.length = o2.length)
    (hd : ∀ k : Nat, o1.data[k]? = o2.data[k]?) : o1 = o2 := by
  cases o1; cases o2
  simp only [fvec_t.mk.injEq]
  exact ⟨hl, List.ext_getElem? hd⟩


/-! ## Allocation -/

theorem toSint_le_zero_iff (x : Nat) (hx : x < UINT_MOD) :
    toSint x ≤ 0 ↔ x = 0 ∨ UINT_MOD / 2 ≤ x := by
  unfold toSint
  rw [Nat.mod_eq_of_lt hx]
  simp only [UINT_MOD] at hx ⊢
  split <;> omega

/-- The row-pointer loop of `new_fmat`: entries `1 .. n` are set, the others
kept. -/
theorem rows_loop (f : Nat → Nat) (n : Nat) (L : List Nat) :
    ((List.range' 1 n).foldl (fun rows i => rows.set i (f i)) L).length = L.length ∧
    ∀ i : Nat, ((List.range' 1 n).foldl (fun rows i => rows.set i (f i)) L)[i]? =
      if 1 ≤ i ∧ i ≤ n ∧ i < L.length then some (f i) else L[i]? := by
  induction n with
  | zero =>
    refine ⟨rfl, fun i => ?_⟩
    have : ¬ (1 ≤ i ∧ i ≤ 0 ∧ i < L.length) := by omega
    rw [if_neg this]; rfl
  | succ n ih =>
    obtain ⟨ihl, ihv⟩ := ih
    rw [List.range'_concat, List.foldl_append]
    simp only [List.foldl_cons, List.foldl_nil, Nat.one_mul]
    refine ⟨by rw [List.length_set, ihl], fun i => ?_⟩
    by_cases hi : i = 1 + n
    · subst hi
      by_cases hlt : 1 + n < L.length
      · rw [List.getElem?_set_self (by rw [ihl]; exact hlt)]
        have : 1 ≤ 1 + n ∧ 1 + n ≤ n + 1 ∧ 1 + n < L.length := by omega
        simp [this]
      · rw [List.getElem?_eq_none (by rw [List.length_set, ihl]; omega)]
        have : ¬ (1 ≤ 1 + n ∧ 1 + n ≤ n + 1 ∧ 1 + n < L.length) := by omega
        rw [if_neg this, List.getElem?_eq_none (by omega)]
    · rw [List.getElem?_set_ne (Ne.symm hi), ihv i]
      by_cases hc : 1 ≤ i ∧ i ≤ n ∧ i < L.length
      · have : 1 ≤ i ∧ i ≤ n + 1 ∧ i < L.length := by omega
        rw [if_pos hc, if_pos this]
      · have : ¬ (1 ≤ i ∧ i ≤ n + 1 ∧ i < L.length) := by omega
        rw [if_neg hc, if_neg this]

/-- What `new_fmat` returns on dimensions that pass its guard. -/
theorem new_fmat_some {R : Type} (init : Nat → R) (height length : Nat)
    (hh : 0 < height) (hh' : height < UINT_MOD / 2)
    (hl : 0 < length) (hl' : length < UINT_MOD / 2) :
    new_fmat init height length = some
      { height := height, length := length,
        data := (List.range height).map (fun i => i * length % UINT_MOD),
        buf := AUBIO_ARRAY init (height * length % UINT_MOD) } := by
  have hM : UINT_MOD = 4294967296 := rfl
  have g1 : ¬ toSint height ≤ 0 := by
    rw [toSint_le_zero_iff height (by omega)]; omega
  have g2 : ¬ toSint length ≤ 0 := by
    rw [toSint_le_zero_iff length (by omega)]; omega
  unfold new_fmat
  rw [if_neg (by tauto)]
  simp only [Option.some.injEq, fmat_t.mk.injEq, true_and, and_true]
  obtain ⟨hlen, hval⟩ := rows_loop (fun i => 0 + i * length % UINT_MOD) (height - 1)
    ((AUBIO_ARRAY (fun _ => 0) height).set 0 0)
  have hlen0 : ((AUBIO_ARRAY (fun _ => 0) height).set 0 0).length = height := by
    simp [AUBIO_ARRAY]
  apply List.ext_getElem?
  intro i
  rw [hval i, hlen0]
  by_cases hi : i < height
  · rw [List.getElem?_map, List.getElem?_range hi]
    by_cases h0 : i = 0
    · subst h0
      have : ¬ (1 ≤ 0 ∧ 0 ≤ height - 1 ∧ 0 < height) := by omega
      rw [if_neg this, List.getElem?_set_self (by rw [List.length_set] at hlen0; omega)]
      simp
    · have : 1 ≤ i ∧ i ≤ height - 1 ∧ i < height := by omega
      rw [if_pos this]
      simp
  · have : ¬ (1 ≤ i ∧ i ≤ height - 1 ∧ i < height) := by omega
    rw [if_neg this, List.getElem?_eq_none (by rw [hlen0]; omega),
      List.getElem?_eq_none (by simp; omega)]

/-- When the cell count fits `uint_t`, `new_fmat` returns a well-formed
matrix. -/
theorem new_fmat_wellFormed {R : Type} (init : Nat → R) (height length : Nat)
    (hh : 0 < height) (hh' : height < UINT_MOD / 2)
    (hl : 0 < length) (hl' : length < UINT_MOD / 2) (hfit : height * length < UINT_MOD) :
    ∃ m, new_fmat init height length = some m ∧ m.WellFormed ∧
      m.height = height ∧ m.length = length :=
  ⟨_, new_fmat_some init height length hh hh' hl hl',
    ⟨hh, hh', hl, hl', rfl, by simp [AUBIO_ARRAY],
      by simp [AUBIO_ARRAY, Nat.mod_eq_of_lt hfit]⟩, rfl, rfl⟩

/-- Every well-formed matrix is one that `new_fmat` returns, for some initial
contents of the allocated buffer. -/
theorem fmat_t.WellFormed.built {R : Type} [Zero R] {m : fmat_t R} (hm : m.WellFormed) :
    new_fmat (fun p => m.buf.getD p 0) m.height m.length = some m := by
  have hfit := hm.fits
  obtain ⟨hh, hh', hl, hl', hd, _, hb⟩ := hm
  rw [new_fmat_some _ _ _ hh hh' hl hl']
  cases m with
  | mk height length data buf =>
    simp only [Option.some.injEq, fmat_t.mk.injEq, true_and]
    simp only at hd hb hfit
    refine ⟨hd.symm, ?_⟩
    apply List.ext_getElem?
    intro p
    rw [Nat.mod_eq_of_lt hfit, ← hb]
    unfold AUBIO_ARRAY
    by_cases hp : p < buf.length
    · rw [List.getElem?_map, List.getElem?_range hp, List.getElem?_eq_getElem hp]
      simp [List.getD_eq_getElem?_getD, List.getElem?_eq_getElem hp]
    · rw [List.getElem?_eq_none (by simp; omega), List.getElem?_eq_none (by omega)]


/-! ## Copy -/

/-- The run of `fmat_copy` on mismatched dimensions: `t` is returned as it
was, with one message naming the first mismatch. -/
theorem fmat_copy_run_mismatch {R : Type} (hacks : Bool) (s t : fmat_t R)
    (h : s.height ≠ t.height ∨ s.length ≠ t.length) :
    fmat_copy hacks s t = .ok ((), t,
      [if s.height ≠ t.height
        then ⟨"trying to copy %d rows to %d rows \n", [s.height, t.height]⟩
        else ⟨"trying to copy %d columns to %d columns\n", [s.length, t.length]⟩]) := by
  unfold fmat_copy
  by_cases hh : s.height ≠ t.height
  · rw [if_pos hh, if_pos hh]
  · have hl : s.length ≠ t.length := by tauto
    rw [if_neg hh, if_pos hl, if_neg hh]

/-- The routine `memcpy` on ranges inside both buffers: `n` cells are copied
and every other cell of the destination is kept. -/
theorem memcpy_spec {R : Type} (dst : List R) (doff : Nat) (src : List R) (soff n : Nat)
    (hd : doff + n ≤ dst.length) (hs : soff + n ≤ src.length) :
    ∃ d', memcpy dst doff src soff n = .ok d' ∧ d'.length = dst.length ∧
      (∀ q : Nat, q < n → d'[doff + q]? = src[soff + q]?) ∧
      (∀ p : Nat, p < doff → d'[p]? = dst[p]?) := by
  have key := forLoop_inv
    (fun i d => d.length = dst.length ∧
      (∀ q : Nat, q < i → d[doff + q]? = src[soff + q]?) ∧
      (∀ p : Nat, p < doff → d[p]? = dst[p]?))
    n (fun i dst => do
      let v ← rd src (soff + i)
      wr dst (doff + i) v) dst
    ⟨rfl, fun q hq => by simp at hq, fun p _ => rfl⟩
    (fun i hi d hP => by
      obtain ⟨hlen, hlo, hfr⟩ := hP
      have hsi : soff + i < src.length := by omega
      have hdi : doff + i < d.length := by rw [hlen]; omega
      refine ⟨d.set (doff + i) (src.get ⟨soff + i, hsi⟩), ?_, ?_, ?_, ?_⟩
      · show (rd src (soff + i) >>= fun v => wr d (doff + i) v) = _
        rw [rd_ok_of_lt _ _ hsi, ok_bind, wr_ok _ _ _ hdi]
      · simp [hlen]
      · intro q hq
        by_cases hqi : q = i
        · subst hqi
          rw [List.getElem?_set_self hdi, List.getElem?_eq_getElem hsi]; rfl
        · rw [List.getElem?_set_ne (by omega)]
          exact hlo q (by omega)
      · intro p hp
        rw [List.getElem?_set_ne (by omega)]
        exact hfr p hp)
  obtain ⟨d', h1, h2, h3, h4⟩ := key
  exact ⟨d', h1, h2, h3, h4⟩

/-- A matrix that kept the shape of `t` and holds the cells of `s` is `t`
with the buffer of `s`. -/
theorem SameShape.eq_of_cells {R : Type} {s t t' : fmat_t R} (hs : s.WellFormed)
    (ht : t.WellFormed) (hh : s.height = t.height) (hl : s.length = t.length) (hsh : SameShape t t')
    (hv : ∀ p : Nat, p < t.height * t.length → t'.buf[p]? = s.buf[p]?) :
    t' = { t with buf := s.buf } := by
  obtain ⟨e1, e2, e3, e4⟩ := hsh
  cases t' with
  | mk h' l' d' b' =>
    simp only at e1 e2 e3 e4 hv
    simp only [fmat_t.mk.injEq]
    refine ⟨e1, e2, e3, ?_⟩
    apply List.ext_getElem?
    intro p
    by_cases hp : p < t.height * t.length
    · exact hv p hp
    · have hsl : s.buf.length = t.height * t.length := by
        rw [hs.buf_length, hh, hl]
      have hbl : b'.length ≤ p := by
        rw [e4, ht.buf_length]; omega
      rw [List.getElem?_eq_none hbl, List.getElem?_eq_none (by omega)]


/-- The run of `fmat_copy` on well-formed matrices of equal dimensions, in
both build variants: `t` receives the buffer of `s` and nothing is logged. -/
theorem fmat_copy_run_match {R : Type} [Zero R] (hacks : Bool) (s t : fmat_t R)
    (hs : s.WellFormed) (ht : t.WellFormed)
    (hh : s.height = t.height) (hl : s.length = t.length) :
    fmat_copy hacks s t = .ok ((), { t with buf := s.buf }, []) := by
  unfold fmat_copy
  rw [if_neg (not_not.mpr hh), if_neg (not_not.mpr hl)]
  cases hacks with
  | true =>
    rw [if_pos rfl]
    have key := forLoop_inv
      (fun i t' => SameShape t t' ∧ ∀ p : Nat, p < i * t.length → t'.buf[p]? = s.buf[p]?)
      s.height (fun i t => do
        let trow ← rd t.data i
        let srow ← rd s.data i
        let buf ← memcpy t.buf trow s.buf srow t.length
        pure { t with buf := buf }) t
      ⟨SameShape.refl t, fun p hp => by simp at hp⟩
      (fun i hi t1 hP => by
        obtain ⟨hsh, hv⟩ := hP
        have ht1 := hsh.wellFormed ht
        have hit : i < t.height := by rw [← hh]; exact hi
        have hit1 : i < t1.height := by rw [hsh.1]; exact hit
        have hb1 : i * t.length + t.length ≤ t1.buf.length := by
          rw [hsh.2.2.2, ht.buf_length]
          have := Nat.mul_le_mul_right t.length (Nat.succ_le_of_lt hit)
          rw [Nat.succ_mul] at this; exact this
        have hb2 : i * t.length + t.length ≤ s.buf.length := by
          rw [hs.buf_length, hh, hl]
          have := Nat.mul_le_mul_right t.length (Nat.succ_le_of_lt hit)
          rw [Nat.succ_mul] at this; exact this
        obtain ⟨d', hrun, hlen, hcp, hfr⟩ :=
          memcpy_spec t1.buf (i * t.length) s.buf (i * t.length) t.length hb1 hb2
        refine ⟨{ t1 with buf := d' }, ?_, ⟨hsh.1, hsh.2.1, hsh.2.2.1, hlen.trans hsh.2.2.2⟩, ?_⟩
        · show (rd t1.data i >>= fun trow => rd s.data i >>= fun srow =>
            memcpy t1.buf trow s.buf srow t1.length >>= fun buf =>
              pure { t1 with buf := buf }) = _
          rw [ht1.row hit1, ok_bind, hs.row hi, ok_bind, hsh.2.1, hl, hrun, ok_bind]
          rfl
        · intro p hp
          show d'[p]? = _
          by_cases hlt : p < i * t.length
          · rw [hfr p hlt]; exact hv p hlt
          · have hq : p = i * t.length + (p - i * t.length) := by omega
            rw [Nat.add_mul, Nat.one_mul] at hp
            rw [hq]
            exact hcp _ (by omega))
    obtain ⟨t', hrun, hsh, hv⟩ := key
    have heq := hsh.eq_of_cells hs ht hh hl (fun p hp => hv p (by rw [hh]; exact hp))
    show (forLoop s.height _ t >>= fun t => pure ((), t, [])) = _
    rw [hrun, ok_bind, heq]; rfl
  | false =>
    rw [if_neg (by simp)]
    obtain ⟨t', hrun, hsh, hv⟩ := fill_loop t ht (fun i j => s.at i j)
      (fun i j t => do
        let srow ← rd s.data i
        let v ← rd s.buf (srow + j)
        let trow ← rd t.data i
        let buf ← wr t.buf (trow + j) v
        pure { t with buf := buf })
      (fun i j t1 hi hj hsh => by
        have ht1 := hsh.wellFormed ht
        have hi1 : i < t1.height := by rw [hsh.1]; exact hi
        have hj1 : j < t1.length := by rw [hsh.2.1]; exact hj
        show (rd s.data i >>= fun srow => rd s.buf (srow + j) >>= fun v =>
          rd t1.data i >>= fun trow => wr t1.buf (trow + j) v >>= fun buf =>
            pure { t1 with buf := buf }) = _
        rw [hs.row (by rw [hh]; exact hi), ok_bind,
          hs.rd_buf (by rw [hh]; exact hi) (by rw [hl]; exact hj), ok_bind,
          ht1.row hi1, ok_bind, wr_ok _ _ _ (ht1.idx_lt hi1 hj1), ok_bind, hsh.2.1]
        rfl)
    have heq := hsh.eq_of_cells hs ht hh hl (fun p hp => by
      have hl0 : 0 < t.length := ht.length_pos
      have hj : p % t.length < t.length := Nat.mod_lt _ hl0
      have hi : p / t.length < t.height := by
        rw [Nat.div_lt_iff_lt_mul hl0]; exact hp
      have hp' : p = p / t.length * t.length + p % t.length := by
        rw [Nat.mul_comm]; exact (Nat.div_add_mod p t.length).symm
      have h1 := hv _ _ hi hj
      have h2 := hs.rd_buf (by rw [hh]; exact hi) (by rw [hl]; exact hj)
      rw [hl, ← hp'] at h2
      rw [← hp'] at h1
      rw [h1]
      unfold rd at h2
      cases hget : s.buf[p]? with
      | none => rw [hget] at h2; cases h2
      | some v => rw [hget] at h2; injection h2 with h2; rw [h2])
    show (forLoop t.height _ t >>= fun t => pure ((), t, [])) = _
    rw [hrun, ok_bind, heq]; rfl


theorem fmat_t.WellFormed.data_eq {R : Type} {s t : fmat_t R} (hs : s.WellFormed)
    (ht : t.WellFormed) (hh : s.height = t.height) (hl : s.length = t.length) :
    s.data = t.data := by
  rw [hs.data_def, ht.data_def, hh, hl]

/-! ## Results -/

/-- C1.  For well-formed matrices `a`, `b`, `c` with `a.height = c.height`,
`a.length = b.height` and `b.length = c.length`, the reference `fmat_matmul`
ends normally, with or without assertions, and afterwards `fmat_get_sample`
reads at every `(i, j)` of the result the sum over `k < a.length` of
`a[i][k] * b[k][j]`, whatever `c` held before. -/
theorem fmat_matmul_reference_spec {R : Type} [CommRing R] (dbg : Bool) (a b c : fmat_t R)
    (ha : a.WellFormed) (hb : b.WellFormed) (hc : c.WellFormed)
    (h1 : a.height = c.height) (h2 : a.length = b.height) (h3 : b.length = c.length) :
    ∃ c', fmat_matmul_reference dbg a b c = .ok c' ∧
      c'.height = c.height ∧ c'.length = c.length ∧
      ∀ i j, i < c.height → j < c.length →
        fmat_get_sample c' i j = .ok (∑ k in Finset.range a.length, a.at i k * b.at k j) := by
  obtain ⟨c', hrun, hs, hv⟩ := fmat_matmul_reference_run dbg a b c ha hb hc h1 h2 h3
  exact ⟨c', hrun, hs.1, hs.2.1, fun i j hi hj => hs.get_sample_ok hc hi (hv i j hi hj)⟩

/-- C1 at `A = [[1,2],[3,4]]`, `B = [[5,6],[7,8]]`: the product is
`[[19,22],[43,50]]`. -/
theorem fmat_matmul_reference_spec_witness :
    ex_A.WellFormed ∧ ex_B.WellFormed ∧ ex_C.WellFormed ∧
    fmat_matmul_reference true ex_A ex_B ex_C = .ok ⟨2, 2, [0, 2], [19, 22, 43, 50]⟩ ∧
    ∃ c', fmat_matmul_reference true ex_A ex_B ex_C = .ok c' ∧
      c'.height = ex_C.height ∧ c'.length = ex_C.length ∧
      ∀ i j, i < ex_C.height → j < ex_C.length →
        fmat_get_sample c' i j
          = .ok (∑ k in Finset.range ex_A.length, ex_A.at i k * ex_B.at k j) :=
  ⟨by decide, by decide, by decide, rfl,
    fmat_matmul_reference_spec true ex_A ex_B ex_C (by decide) (by decide) (by decide)
      rfl rfl rfl⟩

/-- C2.  For a well-formed matrix `s` and vectors with
`output.length = s.height` and `scale.length = s.length`, the reference
`fmat_vecmul` ends normally and afterwards `output[k]` is the sum over
`j < s.length` of `scale[j] * s[k][j]` for every `k < s.height`, whatever
`output` held before. -/
theorem fmat_vecmul_reference_spec {R : Type} [CommRing R] (dbg : Bool)
    (s : fmat_t R) (scale output : fvec_t R)
    (hs : s.WellFormed) (hscale : scale.WellFormed) (hout : output.WellFormed)
    (h1 : output.length = s.height) (h2 : scale.length = s.length) :
    ∃ o', fmat_vecmul_reference dbg s scale output = .ok o' ∧ o'.length = output.length ∧
      ∀ k, k < s.height →
        rd o'.data k = .ok (∑ j in Finset.range s.length, scale.at j * s.at k j) := by
  obtain ⟨o', hrun, hl, _, hv⟩ :=
    fmat_vecmul_reference_run dbg s scale output hs hscale hout h1 h2
  exact ⟨o', hrun, hl, fun k hk => rd_eq_ok (hv k hk)⟩

/-- C2 at `M = [[1,2],[3,4]]`, `scale = [1,1]`: the output is `[3,7]`. -/
theorem fmat_vecmul_reference_spec_witness :
    ex_M.WellFormed ∧ ex_scale.WellFormed ∧ ex_out.WellFormed ∧
    fmat_vecmul_reference true ex_M ex_scale ex_out = .ok ⟨2, [3, 7]⟩ ∧
    ∃ o', fmat_vecmul_reference true ex_M ex_scale ex_out = .ok o' ∧
      o'.length = ex_out.length ∧
      ∀ k, k < ex_M.height →
        rd o'.data k = .ok (∑ j in Finset.range ex_M.length, ex_scale.at j * ex_M.at k j) :=
  ⟨by decide, by decide, by decide, rfl,
    fmat_vecmul_reference_spec true ex_M ex_scale ex_out (by decide) (by decide) (by decide)
      rfl rfl⟩

/-- C3.  For a well-formed matrix `s` and vectors with
`scale.length = s.height` and `output.length = s.length`, the reference
`fvec_matmul` ends normally and afterwards `output[j]` is the sum over
`k < s.height` of `scale[k] * s[k][j]` for every `j < s.length`, whatever
`output` held before. -/
theorem fvec_matmul_reference_spec {R : Type} [CommRing R] (dbg : Bool)
    (scale : fvec_t R) (s : fmat_t R) (output : fvec_t R)
    (hs : s.WellFormed) (hscale : scale.WellFormed) (hout : output.WellFormed)
    (h1 : scale.length = s.height) (h2 : output.length = s.length) :
    ∃ o', fvec_matmul_reference dbg scale s output = .ok o' ∧ o'.length = output.length ∧
      ∀ j, j < s.length →
        rd o'.data j = .ok (∑ k in Finset.range s.height, scale.at k * s.at k j) := by
  obtain ⟨o', hrun, hl, _, hv⟩ :=
    fvec_matmul_reference_run dbg scale s output hs hscale hout h1 h2
  exact ⟨o', hrun, hl, fun j hj => rd_eq_ok (hv j hj)⟩

/-- C3 at `scale = [1,1]`, `M = [[1,2],[3,4]]`: the output is `[4,6]`. -/
theorem fvec_matmul_reference_spec_witness :
    ex_M.WellFormed ∧ ex_scale.WellFormed ∧ ex_out.WellFormed ∧
    fvec_matmul_reference true ex_scale ex_M ex_out = .ok ⟨2, [4, 6]⟩ ∧
    ∃ o', fvec_matmul_reference true ex_scale ex_M ex_out = .ok o' ∧
      o'.length = ex_out.length ∧
      ∀ j, j < ex_M.length →
        rd o'.data j = .ok (∑ k in Finset.range ex_M.height, ex_scale.at k * ex_M.at k j) :=
  ⟨by decide, by decide, by decide, rfl,
    fvec_matmul_reference_spec true ex_scale ex_M ex_out (by decide) (by decide) (by decide)
      rfl rfl⟩

/-- C4 fails on the code.  At `scale = [1,1]`, `M = [[1,2],[3,4]]` the
`HAVE_ACCELERATE` branch of `fvec_matmul` leaves the row sums `[3,7]` in
`output` where the reference branch leaves the column sums `[4,6]`; on the
2 x 3 matrix `[[1,2,3],[4,5,6]]` it leaves `output[2]` as it was. -/
theorem fvec_matmul_accelerate_differs :
    (ex_M.WellFormed ∧ ex_scale.WellFormed ∧ ex_out.WellFormed ∧
      ex_scale.length = ex_M.height ∧ ex_out.length = ex_M.length ∧
      fvec_matmul_accelerate true ex_scale ex_M ex_out = .ok ⟨2, [3, 7]⟩ ∧
      fvec_matmul_reference true ex_scale ex_M ex_out = .ok ⟨2, [4, 6]⟩) ∧
    (ex_M23.WellFormed ∧ ex_out3.WellFormed ∧
      ex_scale.length = ex_M23.height ∧ ex_out3.length = ex_M23.length ∧
      fvec_matmul_accelerate true ex_scale ex_M23 ex_out3 = .ok ⟨3, [3, 9, 9]⟩ ∧
      fvec_matmul_reference true ex_scale ex_M23 ex_out3 = .ok ⟨3, [5, 7, 9]⟩) :=
  ⟨⟨by decide, by decide, by decide, rfl, rfl, rfl, rfl⟩,
    ⟨by decide, by decide, rfl, rfl, rfl, rfl⟩⟩

/-- C5.  For a well-formed matrix `s` and vectors with
`output.length = s.height` and `scale.length = s.length`, the
`HAVE_ACCELERATE` branch of `fmat_vecmul` (one exact dot product per row) and
the reference branch both end normally and leave the same `output`. -/
theorem fmat_vecmul_accelerate_eq_reference {R : Type} [CommRing R] (dbg : Bool)
    (s : fmat_t R) (scale output : fvec_t R)
    (hs : s.WellFormed) (hscale : scale.WellFormed) (hout : output.WellFormed)
    (h1 : output.length = s.height) (h2 : scale.length = s.length) :
    ∃ o', fmat_vecmul_accelerate s scale output = .ok o' ∧
      fmat_vecmul_reference dbg s scale output = .ok o' := by
  obtain ⟨o1, hrun1, hl1, hd1, hv1⟩ :=
    fmat_vecmul_accelerate_run s scale output hs hscale hout h1 h2
  obtain ⟨o2, hrun2, hl2, hd2, hv2⟩ :=
    fmat_vecmul_reference_run dbg s scale output hs hscale hout h1 h2
  have heq : o2 = o1 := by
    apply fvec_t.ext_of (hl2.trans hl1.symm)
    intro k
    by_cases hk : k < s.height
    · rw [hv1 k hk, hv2 k hk]
    · have hk1 : o1.data.length ≤ k := by rw [hd1, hout, h1]; omega
      have hk2 : o2.data.length ≤ k := by rw [hd2, hout, h1]; omega
      rw [List.getElem?_eq_none hk1, List.getElem?_eq_none hk2]
  exact ⟨o1, hrun1, heq ▸ hrun2⟩

/-- C5 at `M = [[1,2],[3,4]]`, `scale = [1,1]`. -/
theorem fmat_vecmul_accelerate_eq_reference_witness :
    ex_M.WellFormed ∧ ex_scale.WellFormed ∧ ex_out.WellFormed ∧
    ∃ o', fmat_vecmul_accelerate ex_M ex_scale ex_out = .ok o' ∧
      fmat_vecmul_reference true ex_M ex_scale ex_out = .ok o' :=
  ⟨by decide, by decide, by decide,
    fmat_vecmul_accelerate_eq_reference true ex_M ex_scale ex_out (by decide) (by decide)
      (by decide) rfl rfl⟩



/-- C6.  On `uint_t` arguments `new_fmat` returns `NULL` exactly when one of
them is `<= 0` as a `sint_t`, that is, is `0` or has its top bit set; on every
other pair it returns a matrix with those `height` and `length`. -/
theorem new_fmat_null_iff {R : Type} (init : Nat → R) (height length : Nat)
    (hh : height < UINT_MOD) (hl : length < UINT_MOD) :
    (new_fmat init height length = none ↔ (toSint height ≤ 0 ∨ toSint length ≤ 0)) ∧
    ((toSint height ≤ 0 ∨ toSint length ≤ 0) ↔
      ((height = 0 ∨ 2 ^ 31 ≤ height) ∨ (length = 0 ∨ 2 ^ 31 ≤ length))) ∧
    (¬ (toSint height ≤ 0 ∨ toSint length ≤ 0) →
      ∃ m, new_fmat init height length = some m ∧ m.height = height ∧ m.length = length) := by
  have hM : UINT_MOD / 2 = 2 ^ 31 := rfl
  have e1 := toSint_le_zero_iff height hh
  have e2 := toSint_le_zero_iff length hl
  rw [hM] at e1 e2
  refine ⟨?_, by rw [e1, e2], ?_⟩
  · by_cases hg : toSint height ≤ 0 ∨ toSint length ≤ 0
    · simp [new_fmat, hg]
    · simp [new_fmat, hg]
  · intro hg
    rw [e1, e2] at hg
    exact ⟨_, new_fmat_some init height length (by omega) (by rw [hM]; omega) (by omega)
      (by rw [hM]; omega), rfl, rfl⟩

/-- C6 at `new_fmat(2, 3)`. -/
theorem new_fmat_null_iff_witness :
    2 < UINT_MOD ∧ 3 < UINT_MOD ∧
    ((new_fmat (fun _ => (0 : ℤ)) 2 3 = none ↔ (toSint 2 ≤ 0 ∨ toSint 3 ≤ 0)) ∧
    ((toSint 2 ≤ 0 ∨ toSint 3 ≤ 0) ↔
      ((2 = 0 ∨ 2 ^ 31 ≤ 2) ∨ (3 = 0 ∨ 2 ^ 31 ≤ 3))) ∧
    (¬ (toSint 2 ≤ 0 ∨ toSint 3 ≤ 0) →
      ∃ m, new_fmat (fun _ => (0 : ℤ)) 2 3 = some m ∧ m.height = 2 ∧ m.length = 3)) :=
  ⟨by decide, by decide, new_fmat_null_iff (fun _ => (0 : ℤ)) 2 3 (by decide) (by decide)⟩

/-- C7 fails on the code.  `new_fmat(4, 2^30)` passes the guard and returns a
matrix with `height = 4`, `length = 2^30` and rows at offsets `i * 2^30`, but
the cell count `4 * 2^30` wraps to `0` in `uint_t`: the buffer is empty and
already cell `(0, 0)` is out of range. -/
theorem new_fmat_count_wraps :
    new_fmat (fun _ => (0 : ℤ)) 4 1073741824
      = some ⟨4, 1073741824, [0, 1073741824, 2147483648, 3221225472], []⟩ ∧
    (⟨4, 1073741824, [0, 1073741824, 2147483648, 3221225472], []⟩ : fmat_t ℤ).buf.length
      ≠ 4 * 1073741824 ∧
    fmat_get_sample
      (⟨4, 1073741824, [0, 1073741824, 2147483648, 3221225472], []⟩ : fmat_t ℤ) 0 0
      = .error .out_of_bounds :=
  ⟨by rw [new_fmat_some _ _ _ (by decide) (by decide) (by decide) (by decide)]; rfl,
    by decide, rfl⟩

/-- C8.  On matrices whose heights or lengths differ, `fmat_copy` (in both
build variants) ends normally, hands back `t` exactly as it was and passes one
message to `AUBIO_ERR`: the rows message with both heights, or the columns
message with both lengths. -/
theorem fmat_copy_mismatch {R : Type} (hacks : Bool) (s t : fmat_t R)
    (h : s.height ≠ t.height ∨ s.length ≠ t.length) :
    ∃ msg, fmat_copy hacks s t = .ok ((), t, [msg]) ∧
      (msg = ⟨"trying to copy %d rows to %d rows \n", [s.height, t.height]⟩ ∨
       msg = ⟨"trying to copy %d columns to %d columns\n", [s.length, t.length]⟩) := by
  refine ⟨_, fmat_copy_run_mismatch hacks s t h, ?_⟩
  by_cases hh : s.height ≠ t.height
  · left; rw [if_pos hh]
  · right; rw [if_neg hh]

/-- C8 at a 2 x 2 source and a 2 x 3 destination. -/
theorem fmat_copy_mismatch_witness :
    (ex_A.height ≠ ex_M23.height ∨ ex_A.length ≠ ex_M23.length) ∧
    ∃ msg, fmat_copy false ex_A ex_M23 = .ok ((), ex_M23, [msg]) ∧
      (msg = ⟨"trying to copy %d rows to %d rows \n", [ex_A.height, ex_M23.height]⟩ ∨
       msg = ⟨"trying to copy %d columns to %d columns\n", [ex_A.length, ex_M23.length]⟩) :=
  ⟨by decide, fmat_copy_mismatch false ex_A ex_M23 (by decide)⟩

/-- C9.  On well-formed matrices of equal height and equal length, the
`HAVE_MEMCPY_HACKS` variant and the element-loop variant of `fmat_copy` end
normally with the same destination and no message; the destination keeps its
dimensions and `fmat_get_sample` reads at every valid `(i, j)` what it reads
in `s`.  The source is a read-only argument. -/
theorem fmat_copy_match {R : Type} [Zero R] (s t : fmat_t R)
    (hs : s.WellFormed) (ht : t.WellFormed)
    (hh : s.height = t.height) (hl : s.length = t.length) :
    ∃ t', fmat_copy true s t = .ok ((), t', []) ∧ fmat_copy false s t = .ok ((), t', []) ∧
      t'.height = t.height ∧ t'.length = t.length ∧
      ∀ i j, i < t.height → j < t.length →
        fmat_get_sample t' i j = fmat_get_sample s i j ∧
        fmat_get_sample s i j = .ok (s.at i j) := by
  refine ⟨{ t with buf := s.buf }, fmat_copy_run_match true s t hs ht hh hl,
    fmat_copy_run_match false s t hs ht hh hl, rfl, rfl, fun i j hi hj => ⟨?_, ?_⟩⟩
  · unfold fmat_get_sample
    show (rd t.data i >>= fun row => rd s.buf (row + j)) = _
    rw [hs.data_eq ht hh hl]
  · exact hs.get_sample (by rw [hh]; exact hi) (by rw [hl]; exact hj)

/-- C9 at a 2 x 2 source and a 2 x 2 destination. -/
theorem fmat_copy_match_witness :
    ex_A.WellFormed ∧ ex_C.WellFormed ∧
    fmat_copy true ex_A ex_C = .ok ((), ex_A, []) ∧
    ∃ t', fmat_copy true ex_A ex_C = .ok ((), t', []) ∧
      fmat_copy false ex_A ex_C = .ok ((), t', []) ∧
      t'.height = ex_C.height ∧ t'.length = ex_C.length ∧
      ∀ i j, i < ex_C.height → j < ex_C.length →
        fmat_get_sample t' i j = fmat_get_sample ex_A i j ∧
        fmat_get_sample ex_A i j = .ok (ex_A.at i j) :=
  ⟨by decide, by decide, rfl, fmat_copy_match ex_A ex_C (by decide) (by decide) rfl rfl⟩

/-- C10 fails on the code.  `fmat_copy` is a `void` function: what it returns
for the mismatched pair (2 x 2 into 2 x 3) is what it returns for the matching
pair (2 x 2 into 2 x 2), in both build variants. -/
theorem fmat_copy_same_return :
    (ex_A.height ≠ ex_M23.height ∨ ex_A.length ≠ ex_M23.length) ∧
    (ex_A.height = ex_C.height ∧ ex_A.length = ex_C.length) ∧
    (fmat_copy false ex_A ex_M23).map Prod.fst = (fmat_copy false ex_A ex_C).map Prod.fst ∧
    (fmat_copy true ex_A ex_M23).map Prod.fst = (fmat_copy true ex_A ex_C).map Prod.fst :=
  ⟨by decide, by decide, rfl, rfl⟩

/-- C10 as amended.  `fmat_copy` returns no status: its return value on a
mismatched pair equals its return value on a matching pair of well-formed
matrices.  The mismatch shows only in the messages passed to `AUBIO_ERR`:
one message on the mismatched pair, none on the matching pair. -/
theorem fmat_copy_diagnostic_only {R : Type} [Zero R] (hacks : Bool) (s t s' t' : fmat_t R)
    (hmis : s.height ≠ t.height ∨ s.length ≠ t.length)
    (hs' : s'.WellFormed) (ht' : t'.WellFormed)
    (hh : s'.height = t'.height) (hl : s'.length = t'.length) :
    (fmat_copy hacks s t).map Prod.fst = (fmat_copy hacks s' t').map Prod.fst ∧
    (∃ msg, (fmat_copy hacks s t).map (fun r => r.2.2) = .ok [msg]) ∧
    (fmat_copy hacks s' t').map (fun r => r.2.2) = .ok [] := by
  rw [fmat_copy_run_mismatch hacks s t hmis, fmat_copy_run_match hacks s' t' hs' ht' hh hl]
  exact ⟨rfl, ⟨_, rfl⟩, rfl⟩

/-- C10 as amended, at the pairs 2 x 2 into 2 x 3 and 2 x 2 into 2 x 2. -/
theorem fmat_copy_diagnostic_only_witness :
    (ex_A.height ≠ ex_M23.height ∨ ex_A.length ≠ ex_M23.length) ∧
    ex_A.WellFormed ∧ ex_C.WellFormed ∧
    ((fmat_copy false ex_A ex_M23).map Prod.fst = (fmat_copy false ex_A ex_C).map Prod.fst ∧
    (∃ msg, (fmat_copy false ex_A ex_M23).map (fun r => r.2.2) = .ok [msg]) ∧
    (fmat_copy false ex_A ex_C).map (fun r => r.2.2) = .ok []) :=
  ⟨by decide, by decide, by decide,
    fmat_copy_diagnostic_only false ex_A ex_M23 ex_A ex_C (by decide) (by decide) (by decide)
      rfl rfl⟩

/-! ## Loops that update cells in place -/

theorem flat_index_inj {l i j i' j' : Nat} (hj : j < l) (hj' : j' < l)
    (h : i * l + j = i' * l + j') : i = i' ∧ j = j' := by
  have h1 := flat_index_div (i := i) hj
  have h2 := flat_index_mod (i := i) hj
  rw [h, flat_index_div hj'] at h1
  rw [h, flat_index_mod hj'] at h2
  exact ⟨h1.symm, h2.symm⟩

/-- Two matrices that kept the shape of a well-formed one and agree on every
cell are equal. -/
theorem SameShape.ext_cells {R : Type} {c c1 c2 : fmat_t R} (hc : c.WellFormed)
    (h1 : SameShape c c1) (h2 : SameShape c c2)
    (hv : ∀ i j, i < c.height → j < c.length →
      c1.buf[i * c.length + j]? = c2.buf[i * c.length + j]?) : c1 = c2 := by
  obtain ⟨a1, a2, a3, a4⟩ := h1
  obtain ⟨b1, b2, b3, b4⟩ := h2
  cases c1 with
  | mk h1 l1 d1 buf1 =>
    cases c2 with
    | mk h2 l2 d2 buf2 =>
      simp only at a1 a2 a3 a4 b1 b2 b3 b4 hv
      simp only [fmat_t.mk.injEq]
      refine ⟨a1.trans b1.symm, a2.trans b2.symm, a3.trans b3.symm, ?_⟩
      apply List.ext_getElem?
      intro p
      by_cases hp : p < c.height * c.length
      · have hl0 : 0 < c.length := hc.length_pos
        have hj : p % c.length < c.length := Nat.mod_lt _ hl0
        have hi : p / c.length < c.height := by
          rw [Nat.div_lt_iff_lt_mul hl0]; exact hp
        have hp' : p / c.length * c.length + p % c.length = p := by
          rw [Nat.mul_comm]; exact Nat.div_add_mod p c.length
        have := hv _ _ hi hj
        rwa [hp'] at this
      · rw [List.getElem?_eq_none (by rw [a4, hc.buf_length]; omega),
          List.getElem?_eq_none (by rw [b4, hc.buf_length]; omega)]

/-- Two nested loops over the rows and the first `n` columns of a well-formed
matrix, whose body replaces the content `x` of cell `(i, j)` by `G i j x`: the
run ends normally, those cells are updated once and all others are kept. -/
theorem update_loop {R : Type} (c : fmat_t R) (hc : c.WellFormed) (n : Nat)
    (hn : n ≤ c.length) (nb : fmat_t R → Nat) (G : Nat → Nat → R → R)
    (body : Nat → Nat → fmat_t R → Except Err (fmat_t R))
    (hnb : ∀ c1, SameShape c c1 → nb c1 = n)
    (hbody : ∀ i j c1 x, i < c.height → j < n → SameShape c c1 →
      c1.buf[i * c.length + j]? = some x →
      body i j c1 = .ok { c1 with buf := c1.buf.set (i * c.length + j) (G i j x) }) :
    ∃ c', forLoop c.height (fun i c1 => forLoop (nb c1) (fun j c2 => body i j c2) c1) c
        = .ok c' ∧ SameShape c c' ∧
      ∀ i j x, i < c.height → j < c.length → c.buf[i * c.length + j]? = some x →
        c'.buf[i * c.length + j]? = some (if j < n then G i j x else x) := by
  have key := forLoop_inv
    (fun i c1 => SameShape c c1 ∧
      ∀ i' j x, i' < c.height → j < c.length → c.buf[i' * c.length + j]? = some x →
        c1.buf[i' * c.length + j]? = some (if i' < i ∧ j < n then G i' j x else x))
    c.height (fun i c1 => forLoop (nb c1) (fun j c2 => body i j c2) c1) c
    ⟨SameShape.refl c, fun i' j x _ _ hx => by simpa using hx⟩
    (fun i hi c1 hP => by
      obtain ⟨hs1, hv1⟩ := hP
      have inner := forLoop_inv
        (fun j c2 => SameShape c c2 ∧
          ∀ i' j' x, i' < c.height → j' < c.length → c.buf[i' * c.length + j']? = some x →
            c2.buf[i' * c.length + j']? =
              some (if (i' < i ∧ j' < n) ∨ (i' = i ∧ j' < j) then G i' j' x else x))
        n (fun j c2 => body i j c2) c1
        ⟨hs1, fun i' j' x hi' hj' hx => by
          rw [hv1 i' j' x hi' hj' hx]
          have : ((i' < i ∧ j' < n) ∨ (i' = i ∧ j' < 0)) ↔ (i' < i ∧ j' < n) := by omega
          simp only [this]⟩
        (fun j hj c2 hQ => by
          obtain ⟨hs2, hv2⟩ := hQ
          have hjl : j < c.length := lt_of_lt_of_le hj hn
          have hlt : i * c.length + j < c.buf.length := hc.idx_lt hi hjl
          have hold := hv2 i j (c.buf.get ⟨_, hlt⟩) hi hjl (List.getElem?_eq_getElem hlt)
          have hno : ¬ ((i < i ∧ j < n) ∨ (i = i ∧ j < j)) := by omega
          rw [if_neg hno] at hold
          refine ⟨_, hbody i j c2 _ hi hj hs2 hold, ⟨hs2.1, hs2.2.1, hs2.2.2.1, ?_⟩, ?_⟩
          · simp [hs2.2.2.2]
          · intro i' j' x hi' hj' hx
            show (c2.buf.set (i * c.length + j) _)[i' * c.length + j']? = _
            by_cases hpe : i' = i ∧ j' = j
            · obtain ⟨e1, e2⟩ := hpe
              subst e1; subst e2
              rw [List.getElem?_set_self (by rw [hs2.2.2.2]; exact hlt)]
              have hx' : c.buf.get ⟨_, hlt⟩ = x := by
                rw [List.getElem?_eq_getElem hlt] at hx
                injection hx
              have : (i' < i' ∧ j' < n) ∨ (i' = i' ∧ j' < j' + 1) := by omega
              rw [if_pos this, hx']
            · have hne : i * c.length + j ≠ i' * c.length + j' := by
                intro heq
                have := flat_index_inj hjl hj' heq
                omega
              rw [List.getElem?_set_ne hne, hv2 i' j' x hi' hj' hx]
              have : ((i' < i ∧ j' < n) ∨ (i' = i ∧ j' < j + 1)) ↔
                  ((i' < i ∧ j' < n) ∨ (i' = i ∧ j' < j)) := by omega
              simp only [this])
      obtain ⟨c2, h2, hs2, hv2⟩ := inner
      refine ⟨c2, ?_, hs2, fun i' j' x hi' hj' hx => ?_⟩
      · show forLoop (nb c1) _ c1 = _
        rw [hnb c1 hs1]; exact h2
      · rw [hv2 i' j' x hi' hj' hx]
        have : ((i' < i ∧ j' < n) ∨ (i' = i ∧ j' < n)) ↔ (i' < i + 1 ∧ j' < n) := by omega
        simp only [this])
  obtain ⟨c', h1, hs, hv⟩ := key
  refine ⟨c', h1, hs, fun i j x hi hj hx => ?_⟩
  rw [hv i j x hi hj hx]
  have : (i < c.height ∧ j < n) ↔ j < n := by
    constructor
    · exact fun h => h.2
    · exact fun h => ⟨hi, h⟩
  simp only [this]

/-- The run of `fmat_set` on a well-formed matrix: every cell holds `val`. -/
theorem fmat_set_run {R : Type} (s : fmat_t R) (val : R) (hs : s.WellFormed) :
    ∃ s', fmat_set s val = .ok s' ∧ SameShape s s' ∧
      ∀ i j, i < s.height → j < s.length → s'.buf[i * s.length + j]? = some val := by
  obtain ⟨s', hrun, hsh, hv⟩ := update_loop s hs s.length (le_refl _) (fun c1 => c1.length)
    (fun _ _ _ => val)
    (fun i j s => do
      let row ← rd s.data i
      let buf ← wr s.buf (row + j) val
      pure { s with buf := buf })
    (fun c1 h => h.2.1)
    (fun i j c1 x hi hj hsh _ => by
      have hc1 := hsh.wellFormed hs
      have hi1 : i < c1.height := by rw [hsh.1]; exact hi
      have hj1 : j < c1.length := by rw [hsh.2.1]; exact hj
      show (rd c1.data i >>= fun row => wr c1.buf (row + j) val >>= fun buf =>
        pure { c1 with buf := buf }) = _
      rw [hc1.row hi1, ok_bind, wr_ok _ _ _ (hc1.idx_lt hi1 hj1), ok_bind, hsh.2.1]
      rfl)
  refine ⟨s', hrun, hsh, fun i j hi hj => ?_⟩
  have hlt := hs.idx_lt hi hj
  rw [hv i j _ hi hj (List.getElem?_eq_getElem hlt), if_pos hj]

/-- The routine `memset` on a range inside the buffer: `n` cells become `0`
and every other cell is kept. -/
theorem memset_spec {R : Type} [Zero R] (dst : List R) (doff n : Nat)
    (hd : doff + n ≤ dst.length) :
    ∃ d', memset dst doff n = .ok d' ∧ d'.length = dst.length ∧
      (∀ q : Nat, q < n → d'[doff + q]? = some 0) ∧
      (∀ p : Nat, p < doff ∨ doff + n ≤ p → d'[p]? = dst[p]?) := by
  have key := forLoop_inv
    (fun i d => d.length = dst.length ∧
      (∀ q : Nat, q < i → d[doff + q]? = some 0) ∧
      (∀ p : Nat, p < doff ∨ doff + i ≤ p → d[p]? = dst[p]?))
    n (fun i dst => wr dst (doff + i) 0) dst
    ⟨rfl, fun q hq => by simp at hq, fun p _ => rfl⟩
    (fun i hi d hP => by
      obtain ⟨hlen, hlo, hfr⟩ := hP
      have hdi : doff + i < d.length := by rw [hlen]; omega
      refine ⟨d.set (doff + i) 0, wr_ok _ _ _ hdi, by simp [hlen], ?_, ?_⟩
      · intro q hq
        by_cases hqi : q = i
        · subst hqi
          rw [List.getElem?_set_self hdi]
        · rw [List.getElem?_set_ne (by omega)]
          exact hlo q (by omega)
      · intro p hp
        rw [List.getElem?_set_ne (by omega)]
        exact hfr p (by omega))
  obtain ⟨d', h1, h2, h3, h4⟩ := key
  exact ⟨d', h1, h2, h3, fun p hp => h4 p hp⟩

/-- A loop over the rows of a well-formed matrix whose body rewrites row `i`
to the values `G i` and keeps the other rows: the run ends normally with
every cell holding its `G` value. -/
theorem row_loop {R : Type} (c : fmat_t R) (G : Nat → Nat → R)
    (inner : Nat → fmat_t R → Except Err (fmat_t R))
    (hinner : ∀ i c1, i < c.height → SameShape c c1 →
      (∀ j, j < c.length → c1.buf[i * c.length + j]? = c.buf[i * c.length + j]?) →
      ∃ c2, inner i c1 = .ok c2 ∧ SameShape c c2 ∧
        (∀ j, j < c.length → c2.buf[i * c.length + j]? = some (G i j)) ∧
        (∀ i' j, i' < c.height → j < c.length → i' ≠ i →
          c2.buf[i' * c.length + j]? = c1.buf[i' * c.length + j]?)) :
    ∃ c', forLoop c.height inner c = .ok c' ∧ SameShape c c' ∧
      ∀ i j, i < c.height → j < c.length → c'.buf[i * c.length + j]? = some (G i j) := by
  have key := forLoop_inv
    (fun i c1 => SameShape c c1 ∧
      ∀ i' j, i' < c.height → j < c.length →
        c1.buf[i' * c.length + j]? =
          if i' < i then some (G i' j) else c.buf[i' * c.length + j]?)
    c.height inner c
    ⟨SameShape.refl c, fun i' j _ _ => by simp⟩
    (fun i hi c1 hP => by
      obtain ⟨hs1, hv1⟩ := hP
      obtain ⟨c2, hrun, hs2, hrow, hfr⟩ := hinner i c1 hi hs1 (fun j hj => by
        rw [hv1 i j hi hj, if_neg (lt_irrefl i)])
      refine ⟨c2, hrun, hs2, fun i' j hi' hj => ?_⟩
      by_cases he : i' = i
      · subst he
        rw [hrow j hj, if_pos (Nat.lt_succ_self _)]
      · rw [hfr i' j hi' hj he, hv1 i' j hi' hj]
        have : i' < i + 1 ↔ i' < i := by omega
        simp only [this])
  obtain ⟨c', h1, hs, hv⟩ := key
  refine ⟨c', h1, hs, fun i j hi hj => ?_⟩
  rw [hv i j hi hj, if_pos hi]

/-- Cells of another row lie outside the range of row `i`. -/
theorem other_row_outside {l i i' j : Nat} (hj : j < l) (hne : i' ≠ i) :
    i' * l + j < i * l ∨ i * l + l ≤ i' * l + j := by
  by_cases h : i' < i
  · left; exact flat_index_lt h hj
  · right
    have h1 : (i + 1) * l ≤ i' * l := Nat.mul_le_mul_right _ (by omega)
    rw [Nat.add_mul, Nat.one_mul] at h1
    omega

/-- The run of the `HAVE_MEMCPY_HACKS` variant of `fmat_zeros`. -/
theorem fmat_zeros_hacks_run {R : Type} [Zero R] (s : fmat_t R) (hs : s.WellFormed) :
    ∃ s', fmat_zeros true s = .ok s' ∧ SameShape s s' ∧
      ∀ i j, i < s.height → j < s.length → s'.buf[i * s.length + j]? = some 0 := by
  unfold fmat_zeros
  rw [if_pos rfl]
  exact row_loop s (fun _ _ => 0)
    (fun i s => do
      let row ← rd s.data i
      let buf ← memset s.buf row s.length
      pure { s with buf := buf })
    (fun i c1 hi hsh _ => by
      have hc1 := hsh.wellFormed hs
      have hi1 : i < c1.height := by rw [hsh.1]; exact hi
      have hb : i * s.length + s.length ≤ c1.buf.length := by
        rw [hsh.2.2.2, hs.buf_length]
        have := Nat.mul_le_mul_right s.length (Nat.succ_le_of_lt hi)
        rw [Nat.succ_mul] at this; exact this
      obtain ⟨d', hrun, hlen, hz, hfr⟩ := memset_spec c1.buf (i * s.length) s.length hb
      refine ⟨{ c1 with buf := d' }, ?_, ⟨hsh.1, hsh.2.1, hsh.2.2.1, hlen.trans hsh.2.2.2⟩,
        fun j hj => hz j hj, fun i' j _ hj hne => hfr _ (other_row_outside hj hne)⟩
      show (rd c1.data i >>= fun row => memset c1.buf row c1.length >>= fun buf =>
        pure { c1 with buf := buf }) = _
      rw [hc1.row hi1, ok_bind, hsh.2.1, hrun, ok_bind]
      rfl)

/-! ## Reversal -/

theorem usub_eq {a b : Nat} (hb : b ≤ a) (ha : a < UINT_MOD) : usub a b = a - b := by
  unfold usub
  have hM : UINT_MOD = 4294967296 := rfl
  rw [Nat.mod_eq_of_lt ha, Nat.mod_eq_of_lt (lt_of_le_of_lt hb ha)]
  rw [hM] at ha ⊢
  omega

theorem fmat_t.WellFormed.length_lt {R : Type} {m : fmat_t R} (hm : m.WellFormed) :
    m.length < UINT_MOD := by
  have hM : UINT_MOD = 4294967296 := rfl
  have := hm.2.2.2.1
  omega

theorem fmat_t.WellFormed.cell {R : Type} [Zero R] {m : fmat_t R} (hm : m.WellFormed)
    {i j : Nat} (hi : i < m.height) (hj : j < m.length) :
    m.buf[i * m.length + j]? = some (m.at i j) := by
  have h := hm.rd_buf hi hj
  unfold rd at h
  cases hget : m.buf[i * m.length + j]? with
  | none => rw [hget] at h; cases h
  | some v => rw [hget] at h; injection h with h; rw [h]

theorem fmat_t.WellFormed.at_of_cell {R : Type} [Zero R] {m : fmat_t R} (hm : m.WellFormed)
    {i j : Nat} (hi : i < m.height) (hj : j < m.length) {v : R}
    (hv : m.buf[i * m.length + j]? = some v) : m.at i j = v := by
  rw [hm.cell hi hj] at hv
  injection hv

/-- The swap of two cells inside the buffer. -/
theorem ELEM_SWAP_ok {R : Type} (buf : List R) {a b : Nat} (ha : a < buf.length)
    (hb : b < buf.length) :
    ELEM_SWAP buf a b
      = .ok (List.set (List.set buf a (buf.get ⟨b, hb⟩)) b (buf.get ⟨a, ha⟩)) := by
  unfold ELEM_SWAP
  rw [rd_ok_of_lt _ _ ha, ok_bind, rd_ok_of_lt _ _ hb, ok_bind, wr_ok _ _ _ ha, ok_bind,
    wr_ok _ _ _ (by rw [List.length_set]; exact hb)]

/-- A `forLoopWhile` whose condition first fails at `n`, within the fuel, is
the counted loop of `n` rounds. -/
theorem forLoopWhile_go_eq {σ : Type} (cond : Nat → Bool) (body : Nat → σ → Except Err σ)
    (n : Nat) : ∀ (fuel j : Nat) (s : σ),
      (∀ i, j ≤ i → i < j + n → cond i = true) → cond (j + n) = false → n < fuel →
      forLoopWhile.go cond body fuel j s = forLoop.go body n j s := by
  induction n with
  | zero =>
    intro fuel j s _ hn hf
    obtain ⟨f, rfl⟩ : ∃ f, fuel = f + 1 := ⟨fuel - 1, by omega⟩
    show (if cond j then _ else Except.ok s) = Except.ok s
    rw [Nat.add_zero] at hn
    rw [hn]; rfl
  | succ n ih =>
    intro fuel j s hc hn hf
    obtain ⟨f, rfl⟩ : ∃ f, fuel = f + 1 := ⟨fuel - 1, by omega⟩
    show (if cond j then body j s >>= forLoopWhile.go cond body f (j + 1) else Except.ok s)
      = (body j s >>= forLoop.go body n (j + 1))
    rw [hc j (le_refl j) (by omega), if_pos rfl]
    cases body j s with
    | error e => rfl
    | ok s1 =>
      show forLoopWhile.go cond body f (j + 1) s1 = forLoop.go body n (j + 1) s1
      exact ih f (j + 1) s1 (fun i h1 h2 => hc i (by omega) (by omega))
        (by rw [show j + 1 + n = j + (n + 1) by omega]; exact hn) (by omega)

theorem forLoopWhile_eq {σ : Type} (cond : Nat → Bool) (body : Nat → σ → Except Err σ)
    (n : Nat) (s : σ) (hc : ∀ i, i < n → cond i = true) (hn : cond n = false)
    (hf : n < UINT_MOD) : forLoopWhile cond body s = forLoop n body s := by
  unfold forLoopWhile forLoop
  exact forLoopWhile_go_eq cond body n UINT_MOD 0 s (fun i _ h => hc i (by omega))
    (by rw [Nat.zero_add]; exact hn) hf

/-! ## The loop bound of `fmat_rev` -/

/-- A value with at most `prec` significant bits is cast exactly. -/
theorem smpl_of_uint_small {prec n : Nat} (h : n < 2 ^ prec) : smpl_of_uint prec n = n := by
  have he : smpl_exponent prec n 32 0 = 0 := by
    show (if n / 2 ^ 0 < 2 ^ prec then 0 else smpl_exponent prec n 31 (0 + 1)) = 0
    rw [if_pos (by simpa using h)]
  unfold smpl_of_uint
  simp [he, Nat.mod_one]

/-- The swap loop ends at some counter value not above the row length. -/
theorem exists_revCount (prec l : Nat) : ∃ n, n ≤ l ∧ IsRevCount prec l n := by
  have hl : ¬ smpl_of_uint prec l < FLOOR_half prec l := by
    unfold FLOOR_half
    exact Nat.not_lt.mpr (Nat.div_le_self _ _)
  have hex : ∃ n, ¬ smpl_of_uint prec n < FLOOR_half prec l := ⟨l, hl⟩
  refine ⟨Nat.find hex, Nat.find_min' hex hl, fun j hj => ?_, ?_⟩
  · have := Nat.find_min hex hj
    simpa using this
  · have := Nat.find_spec hex
    simpa using this

theorem IsRevCount.unique {prec l n m : Nat} (hn : IsRevCount prec l n)
    (hm : IsRevCount prec l m) : n = m := by
  rcases Nat.lt_trichotomy n m with h | h | h
  · have h1 := hm.1 n h
    rw [hn.2] at h1; cases h1
  · exact h
  · have h1 := hn.1 m h
    rw [hm.2] at h1; cases h1

/-- When the row length has at most `prec` significant bits the loop makes
`floor(l / 2)` rounds. -/
theorem isRevCount_small {prec l : Nat} (h : l < 2 ^ prec) : IsRevCount prec l (l / 2) := by
  have hB : FLOOR_half prec l = l / 2 := by
    unfold FLOOR_half; rw [smpl_of_uint_small h]
  refine ⟨fun j hj => ?_, ?_⟩
  · rw [hB, smpl_of_uint_small (by omega)]
    simpa using hj
  · rw [hB, smpl_of_uint_small (lt_of_le_of_lt (Nat.div_le_self _ _) h)]
    simp

/-- The swap loop of `fmat_rev` on row `i`, stopped after `n` rounds: a cell
of the row is exchanged with its mirror exactly when `rev_moved` says so,
and the other rows are kept. -/
theorem fmat_rev_row {R : Type} (c c1 : fmat_t R) (hc : c.WellFormed) (i : Nat)
    (hi : i < c.height) (hsh : SameShape c c1) (n : Nat) (hn : n ≤ c.length) :
    ∃ c2, forLoop n (fun j s => do
        let row ← rd s.data i
        let buf ← ELEM_SWAP s.buf (row + j) (row + usub (usub s.length 1) j)
        pure { s with buf := buf }) c1 = .ok c2 ∧ SameShape c c2 ∧
      (∀ j, j < c.length → c2.buf[i * c.length + j]? =
        if rev_moved n c.length j then c1.buf[i * c.length + (c.length - 1 - j)]?
        else c1.buf[i * c.length + j]?) ∧
      (∀ i' j, i' < c.height → j < c.length → i' ≠ i →
        c2.buf[i' * c.length + j]? = c1.buf[i' * c.length + j]?) := by
  have key := forLoop_inv
    (fun k c2 => SameShape c c2 ∧
      (∀ j, j < c.length → c2.buf[i * c.length + j]? =
        if rev_moved k c.length j then c1.buf[i * c.length + (c.length - 1 - j)]?
        else c1.buf[i * c.length + j]?) ∧
      (∀ p : Nat, p < i * c.length ∨ i * c.length + c.length ≤ p → c2.buf[p]? = c1.buf[p]?))
    n (fun j s => do
        let row ← rd s.data i
        let buf ← ELEM_SWAP s.buf (row + j) (row + usub (usub s.length 1) j)
        pure { s with buf := buf }) c1
    ⟨hsh, fun j hj => by
      have : ¬ rev_moved 0 c.length j := by unfold rev_moved; omega
      rw [if_neg this], fun p _ => rfl⟩
    (fun k hk c2 hP => by
      obtain ⟨hs2, hrow, hfr⟩ := hP
      have hc2 := hs2.wellFormed hc
      have hkl : k < c.length := by omega
      have hbl : c.length - 1 - k < c.length := by omega
      have hi2 : i < c2.height := by rw [hs2.1]; exact hi
      have hsub : usub (usub c.length 1) k = c.length - 1 - k := by
        rw [usub_eq (by omega) hc.length_lt, usub_eq (by omega) (by have := hc.length_lt; omega)]
      have ha_lt : i * c.length + k < c2.buf.length := by
        rw [hs2.2.2.2]; exact hc.idx_lt hi hkl
      have hb_lt : i * c.length + (c.length - 1 - k) < c2.buf.length := by
        rw [hs2.2.2.2]; exact hc.idx_lt hi hbl
      have hta := hrow k hkl
      have htb := hrow (c.length - 1 - k) hbl
      have emir : c.length - 1 - (c.length - 1 - k) = k := by omega
      rw [emir] at htb
      have ga : some (c2.buf.get ⟨_, ha_lt⟩) = c2.buf[i * c.length + k]? := by
        rw [List.getElem?_eq_getElem ha_lt]; rfl
      have gb : some (c2.buf.get ⟨_, hb_lt⟩) = c2.buf[i * c.length + (c.length - 1 - k)]? := by
        rw [List.getElem?_eq_getElem hb_lt]; rfl
      refine ⟨{ c2 with buf := (List.set (List.set c2.buf (i * c.length + k)
          (c2.buf.get ⟨_, hb_lt⟩)) (i * c.length + (c.length - 1 - k))
          (c2.buf.get ⟨_, ha_lt⟩)) }, ?_, ⟨hs2.1, hs2.2.1, hs2.2.2.1, ?_⟩, ?_, ?_⟩
      · show (rd c2.data i >>= fun row =>
          ELEM_SWAP c2.buf (row + k) (row + usub (usub c2.length 1) k) >>= fun buf =>
            pure { c2 with buf := buf }) = _
        rw [hc2.row hi2, ok_bind, hs2.2.1, hsub, ELEM_SWAP_ok _ ha_lt hb_lt, ok_bind]
        rfl
      · simp [hs2.2.2.2]
      · intro j hj
        show ((c2.buf.set _ _).set _ _)[i * c.length + j]? = _
        by_cases hjb : j = c.length - 1 - k
        · -- the second cell of the swap receives the former content of cell `k`
          subst hjb
          rw [List.getElem?_set_self (by rw [List.length_set]; exact hb_lt), emir, ga, hta]
          by_cases hlt : c.length - 1 - k < k
          · have m1 : rev_moved k c.length k := by unfold rev_moved; omega
            have m2 : ¬ rev_moved (k + 1) c.length (c.length - 1 - k) := by
              unfold rev_moved; omega
            rw [if_pos m1, if_neg m2]
          · by_cases heq : c.length - 1 - k = k
            · have m1 : ¬ rev_moved k c.length k := by unfold rev_moved; omega
              have m2 : ¬ rev_moved (k + 1) c.length (c.length - 1 - k) := by
                unfold rev_moved; omega
              rw [if_neg m1, if_neg m2, heq]
            · have m1 : ¬ rev_moved k c.length k := by unfold rev_moved; omega
              have m2 : rev_moved (k + 1) c.length (c.length - 1 - k) := by
                unfold rev_moved; omega
              rw [if_neg m1, if_pos m2]
        · rw [List.getElem?_set_ne (by omega)]
          by_cases hja : j = k
          · -- the first cell receives the former content of the mirror cell
            subst hja
            rw [List.getElem?_set_self ha_lt, gb, htb]
            by_cases hlt : c.length - 1 - j < j
            · have m1 : rev_moved j c.length (c.length - 1 - j) := by
                unfold rev_moved; omega
              have m2 : ¬ rev_moved (j + 1) c.length j := by unfold rev_moved; omega
              rw [if_pos m1, if_neg m2]
            · have m1 : ¬ rev_moved j c.length (c.length - 1 - j) := by
                unfold rev_moved; omega
              have m2 : rev_moved (j + 1) c.length j := by unfold rev_moved; omega
              rw [if_neg m1, if_pos m2]
          · rw [List.getElem?_set_ne (by omega), hrow j hj]
            have : rev_moved (k + 1) c.length j ↔ rev_moved k c.length j := by
              unfold rev_moved; omega
            simp only [this]
      · intro p hp
        show ((c2.buf.set _ _).set _ _)[p]? = _
        rw [List.getElem?_set_ne (by omega), List.getElem?_set_ne (by omega)]
        exact hfr p hp)
  obtain ⟨c2, hrun, hs2, hrow, hfr⟩ := key
  exact ⟨c2, hrun, hs2, hrow, fun i' j _ hj hne => hfr _ (other_row_outside hj hne)⟩

/-- The run of `fmat_rev` on a well-formed matrix, when the swap loop makes `n`
rounds on each row. -/
theorem fmat_rev_run {R : Type} [Zero R] (prec : Nat) (s : fmat_t R) (hs : s.WellFormed)
    (n : Nat) (hn : n ≤ s.length) (hcount : IsRevCount prec s.length n) :
    ∃ s', fmat_rev prec s = .ok s' ∧ SameShape s s' ∧
      ∀ i j, i < s.height → j < s.length →
        s'.buf[i * s.length + j]? =
          some (if rev_moved n s.length j then s.at i (s.length - 1 - j) else s.at i j) := by
  unfold fmat_rev
  exact row_loop s
    (fun i j => if rev_moved n s.length j then s.at i (s.length - 1 - j) else s.at i j) _
    (fun i c1 hi hsh hold => by
      obtain ⟨c2, hrun, hs2, hrow, hfr⟩ := fmat_rev_row s c1 hs i hi hsh n hn
      refine ⟨c2, ?_, hs2, fun j hj => ?_, hfr⟩
      · show forLoopWhile _ _ c1 = _
        rw [hsh.2.1, forLoopWhile_eq _ _ n c1 hcount.1 hcount.2
          (lt_of_le_of_lt hn hs.length_lt)]
        exact hrun
      · have hj' : s.length - 1 - j < s.length := by omega
        rw [hrow j hj, hold _ hj', hold _ hj, hs.cell hi hj', hs.cell hi hj]
        show _ = some (if rev_moved n s.length j then s.at i (s.length - 1 - j) else s.at i j)
        by_cases hm : rev_moved n s.length j
        · rw [if_pos hm, if_pos hm]
        · rw [if_neg hm, if_neg hm])

/-! ## Weighting -/

theorem MIN_le_left (a b : Nat) : MIN a b ≤ a := by
  unfold MIN; split <;> omega

theorem MIN_le_right (a b : Nat) : MIN a b ≤ b := by
  unfold MIN; split <;> omega

/-- The run of `fmat_weight` on well-formed matrices: the first
`MIN s.length weight.length` cells of every row are multiplied by row 0 of
`weight`, the others are kept. -/
theorem fmat_weight_run {R : Type} [CommRing R] (s weight : fmat_t R)
    (hs : s.WellFormed) (hw : weight.WellFormed) :
    ∃ s', fmat_weight s weight = .ok s' ∧ SameShape s s' ∧
      ∀ i j, i < s.height → j < s.length →
        s'.buf[i * s.length + j]? =
          some (if j < MIN s.length weight.length then s.at i j * weight.at 0 j
            else s.at i j) := by
  obtain ⟨s', hrun, hsh, hv⟩ := update_loop s hs (MIN s.length weight.length)
    (MIN_le_left _ _) (fun _ => MIN s.length weight.length)
    (fun _ j x => x * weight.at 0 j)
    (fun i j s => do
      let row ← rd s.data i
      let x ← rd s.buf (row + j)
      let w0 ← rd weight.data 0
      let w ← rd weight.buf (w0 + j)
      let buf ← wr s.buf (row + j) (x * w)
      pure { s with buf := buf })
    (fun _ _ => rfl)
    (fun i j c1 x hi hj hsh hx => by
      have hc1 := hsh.wellFormed hs
      have hi1 : i < c1.height := by rw [hsh.1]; exact hi
      have hjl : j < s.length := lt_of_lt_of_le hj (MIN_le_left _ _)
      have hj1 : j < c1.length := by rw [hsh.2.1]; exact hjl
      have hjw : j < weight.length := lt_of_lt_of_le hj (MIN_le_right _ _)
      have hwv := hw.rd_buf hw.height_pos hjw
      rw [Nat.zero_mul] at hwv
      show (rd c1.data i >>= fun row => rd c1.buf (row + j) >>= fun x =>
        rd weight.data 0 >>= fun w0 => rd weight.buf (w0 + j) >>= fun w =>
          wr c1.buf (row + j) (x * w) >>= fun buf => pure { c1 with buf := buf }) = _
      rw [hc1.row hi1, ok_bind, hsh.2.1, rd_eq_ok hx, ok_bind, hw.row_zero, ok_bind, hwv,
        ok_bind, wr_ok _ _ _ (by rw [hsh.2.2.2]; exact hs.idx_lt hi hjl), ok_bind]
      rfl)
  exact ⟨s', hrun, hsh, fun i j hi hj => hv i j _ hi hj (hs.cell hi hj)⟩

/-! ## Single cells and channel views -/

/-- The run of `fmat_set_sample` at a valid position of a well-formed
matrix. -/
theorem fmat_set_sample_run {R : Type} (s : fmat_t R) (data : R) (hs : s.WellFormed)
    {channel position : Nat} (hc : channel < s.height) (hp : position < s.length) :
    fmat_set_sample s data channel position
      = .ok { s with buf := s.buf.set (channel * s.length + position) data } := by
  unfold fmat_set_sample
  rw [hs.row hc, ok_bind, wr_ok _ _ _ (hs.idx_lt hc hp), ok_bind]
  rfl

/-- The run of `fmat_get_channel` on a valid row of a well-formed matrix. -/
theorem fmat_get_channel_run {R : Type} (s : fmat_t R) (output : fvec_t R)
    (hs : s.WellFormed) {channel : Nat} (hc : channel < s.height) :
    fmat_get_channel s channel output
      = .ok { length := s.length, data := s.buf.drop (channel * s.length) } := by
  unfold fmat_get_channel
  rw [hs.row hc, ok_bind]
  rfl

/-! ## Results: elementwise operations -/

/-- C11.  For a well-formed matrix `s` and a value `val`, `fmat_set` ends
normally, keeps `height` and `length`, and afterwards `fmat_get_sample` returns
`val` at every `channel < height`, `position < length`. -/
theorem fmat_set_spec {R : Type} (s : fmat_t R) (val : R) (hs : s.WellFormed) :
    ∃ s', fmat_set s val = .ok s' ∧ s'.height = s.height ∧ s'.length = s.length ∧
      ∀ channel position, channel < s.height → position < s.length →
        fmat_get_sample s' channel position = .ok val := by
  obtain ⟨s', hrun, hsh, hv⟩ := fmat_set_run s val hs
  exact ⟨s', hrun, hsh.1, hsh.2.1, fun i j hi hj => hsh.get_sample_ok hs hi (hv i j hi hj)⟩

/-- C11 at the 2 x 3 matrix `[[1,2,3],[4,5,6]]` and the value `7`. -/
theorem fmat_set_spec_witness :
    ex_M23.WellFormed ∧
    fmat_set ex_M23 7 = .ok ⟨2, 3, [0, 3], [7, 7, 7, 7, 7, 7]⟩ ∧
    ∃ s', fmat_set ex_M23 7 = .ok s' ∧ s'.height = ex_M23.height ∧
      s'.length = ex_M23.length ∧
      ∀ channel position, channel < ex_M23.height → position < ex_M23.length →
        fmat_get_sample s' channel position = .ok 7 :=
  ⟨by decide, rfl, fmat_set_spec ex_M23 7 (by decide)⟩

/-- C12.  For a well-formed matrix `s`, `fmat_zeros` in both build variants
(per-row `memset` and element loop) ends normally with the matrix that
`fmat_set(s, 0)` gives, and `fmat_ones` with the matrix that `fmat_set(s, 1)`
gives; afterwards every valid `fmat_get_sample` returns `0`, respectively
`1`. -/
theorem fmat_zeros_ones_spec {R : Type} [CommRing R] (s : fmat_t R) (hs : s.WellFormed) :
    ∃ z o, fmat_set s 0 = .ok z ∧ fmat_zeros true s = .ok z ∧ fmat_zeros false s = .ok z ∧
      fmat_set s 1 = .ok o ∧ fmat_ones s = .ok o ∧
      ∀ channel position, channel < s.height → position < s.length →
        fmat_get_sample z channel position = .ok 0 ∧
        fmat_get_sample o channel position = .ok 1 := by
  obtain ⟨z, hz, hzs, hzv⟩ := fmat_set_run s (0 : R) hs
  obtain ⟨z', hz', hzs', hzv'⟩ := fmat_zeros_hacks_run s hs
  obtain ⟨o, ho, hos, hov⟩ := fmat_set_run s (1 : R) hs
  have heq : z' = z := SameShape.ext_cells hs hzs' hzs (fun i j hi hj => by
    rw [hzv i j hi hj, hzv' i j hi hj])
  refine ⟨z, o, hz, heq ▸ hz', hz, ho, ho, fun i j hi hj =>
    ⟨hzs.get_sample_ok hs hi (hzv i j hi hj), hos.get_sample_ok hs hi (hov i j hi hj)⟩⟩

/-- C12 at the 2 x 3 matrix `[[1,2,3],[4,5,6]]`. -/
theorem fmat_zeros_ones_spec_witness :
    ex_M23.WellFormed ∧
    fmat_zeros true ex_M23 = .ok ⟨2, 3, [0, 3], [0, 0, 0, 0, 0, 0]⟩ ∧
    fmat_ones ex_M23 = .ok ⟨2, 3, [0, 3], [1, 1, 1, 1, 1, 1]⟩ ∧
    ∃ z o, fmat_set ex_M23 0 = .ok z ∧ fmat_zeros true ex_M23 = .ok z ∧
      fmat_zeros false ex_M23 = .ok z ∧
      fmat_set ex_M23 1 = .ok o ∧ fmat_ones ex_M23 = .ok o ∧
      ∀ channel position, channel < ex_M23.height → position < ex_M23.length →
        fmat_get_sample z channel position = .ok 0 ∧
        fmat_get_sample o channel position = .ok 1 :=
  ⟨by decide, rfl, rfl, fmat_zeros_ones_spec ex_M23 (by decide)⟩

/-- When the row length has at most `prec` significant bits (always, for a
`float`, up to `2 ^ 24` columns), `fmat_rev` ends normally, keeps `height` and
`length` and reverses every row: cell `(i, j)` holds what cell
`(i, length - 1 - j)` held before. -/
theorem fmat_rev_exact {R : Type} [Zero R] (prec : Nat) (s : fmat_t R) (hs : s.WellFormed)
    (hp : s.length < 2 ^ prec) :
    ∃ s', fmat_rev prec s = .ok s' ∧ s'.height = s.height ∧ s'.length = s.length ∧
      ∀ i j, i < s.height → j < s.length →
        fmat_get_sample s' i j = .ok (s.at i (s.length - 1 - j)) := by
  obtain ⟨s', hrun, hsh, hv⟩ := fmat_rev_run prec s hs (s.length / 2)
    (Nat.div_le_self _ _) (isRevCount_small hp)
  refine ⟨s', hrun, hsh.1, hsh.2.1, fun i j hi hj => ?_⟩
  apply hsh.get_sample_ok hs hi
  rw [hv i j hi hj]
  by_cases hm : rev_moved (s.length / 2) s.length j
  · rw [if_pos hm]
  · rw [if_neg hm]
    have : s.length - 1 - j = j := by unfold rev_moved at hm; omega
    rw [this]

/-- C14.  `fmat_rev` is an involution: for a well-formed matrix `s`, of even or
odd row length, and an `smpl_t` of any precision, `fmat_rev` ends normally and
applying it to the result gives back `s` itself (height, length and every
cell). -/
theorem fmat_rev_involution {R : Type} [Zero R] (prec : Nat) (s : fmat_t R)
    (hs : s.WellFormed) :
    ∃ s', fmat_rev prec s = .ok s' ∧ fmat_rev prec s' = .ok s := by
  obtain ⟨n, hn, hcount⟩ := exists_revCount prec s.length
  obtain ⟨s', hrun, hsh, hv⟩ := fmat_rev_run prec s hs n hn hcount
  have hs' := hsh.wellFormed hs
  obtain ⟨s'', hrun', hsh', hv'⟩ := fmat_rev_run prec s' hs' n
    (by rw [hsh.2.1]; exact hn) (by rw [hsh.2.1]; exact hcount)
  have hsh2 : SameShape s s'' :=
    ⟨hsh'.1.trans hsh.1, hsh'.2.1.trans hsh.2.1, hsh'.2.2.1.trans hsh.2.2.1,
      hsh'.2.2.2.trans hsh.2.2.2⟩
  have hat : ∀ i j, i < s.height → j < s.length →
      s'.at i j = if rev_moved n s.length j then s.at i (s.length - 1 - j) else s.at i j := by
    intro i j hi hj
    apply hs'.at_of_cell (by rw [hsh.1]; exact hi) (by rw [hsh.2.1]; exact hj)
    rw [hsh.2.1]; exact hv i j hi hj
  have heq : s'' = s := SameShape.ext_cells hs hsh2 (SameShape.refl s) (fun i j hi hj => by
    have hi' : i < s'.height := by rw [hsh.1]; exact hi
    have hj' : j < s'.length := by rw [hsh.2.1]; exact hj
    have h1 := hv' i j hi' hj'
    rw [hsh.2.1] at h1
    have hjr : s.length - 1 - j < s.length := by omega
    have e : s.length - 1 - (s.length - 1 - j) = j := by omega
    rw [h1, hs.cell hi hj]
    by_cases hm : rev_moved n s.length j
    · have hm' : rev_moved n s.length (s.length - 1 - j) := by
        unfold rev_moved at hm ⊢; omega
      rw [if_pos hm, hat i _ hi hjr, if_pos hm', e]
    · rw [if_neg hm, hat i j hi hj, if_neg hm])
  exact ⟨s', hrun, heq ▸ hrun'⟩

/-- C14 at a 2 x 3 matrix (odd row length) and a 2 x 2 matrix (even row
length), for a single-precision `smpl_t`. -/
theorem fmat_rev_involution_witness :
    ex_M23.WellFormed ∧ ex_M.WellFormed ∧
    fmat_rev 24 ex_M23 = .ok ⟨2, 3, [0, 3], [3, 2, 1, 6, 5, 4]⟩ ∧
    (∃ s', fmat_rev 24 ex_M23 = .ok s' ∧ fmat_rev 24 s' = .ok ex_M23) ∧
    (fmat_rev 24 ex_M >>= fmat_rev 24) = .ok ex_M :=
  ⟨by decide, by decide, rfl, fmat_rev_involution 24 ex_M23 (by decide), rfl⟩

/-- C15.  For well-formed matrices `s` and `weight` (distinct objects), with
`n = MIN(s.length, weight.length)`, `fmat_weight` ends normally, keeps `height`
and `length`, and afterwards cell `(i, j)` of `s` holds its old value times
`weight[0][j]` for `j < n` and its old value for `n <= j`.  A weight matrix
with the same `n` that agrees with `weight` on the first `n` cells of row 0
gives the same run.  `weight` is a read-only argument. -/
theorem fmat_weight_spec {R : Type} [CommRing R] (s weight : fmat_t R)
    (hs : s.WellFormed) (hw : weight.WellFormed) :
    (∃ s', fmat_weight s weight = .ok s' ∧ s'.height = s.height ∧ s'.length = s.length ∧
      ∀ i j, i < s.height → j < s.length →
        fmat_get_sample s' i j =
          .ok (if j < MIN s.length weight.length then s.at i j * weight.at 0 j
            else s.at i j)) ∧
    (∀ w2 : fmat_t R, w2.WellFormed →
      MIN s.length w2.length = MIN s.length weight.length →
      (∀ j, j < MIN s.length weight.length → w2.at 0 j = weight.at 0 j) →
      fmat_weight s w2 = fmat_weight s weight) := by
  obtain ⟨s', hrun, hsh, hv⟩ := fmat_weight_run s weight hs hw
  refine ⟨⟨s', hrun, hsh.1, hsh.2.1,
    fun i j hi hj => hsh.get_sample_ok hs hi (hv i j hi hj)⟩, fun w2 hw2 hn hag => ?_⟩
  obtain ⟨s2, hrun2, hsh2, hv2⟩ := fmat_weight_run s w2 hs hw2
  have heq : s2 = s' := SameShape.ext_cells hs hsh2 hsh (fun i j hi hj => by
    rw [hv i j hi hj, hv2 i j hi hj, hn]
    by_cases hj' : j < MIN s.length weight.length
    · rw [if_pos hj', if_pos hj', hag j hj']
    · rw [if_neg hj', if_neg hj'])
  rw [hrun, hrun2, heq]

/-- C15 at the 2 x 3 matrix `[[1,2,3],[4,5,6]]` weighted by the 2 x 2 matrix
`[[1,2],[3,4]]`: the result is `[[1,4,3],[4,10,6]]`. -/
theorem fmat_weight_spec_witness :
    ex_M23.WellFormed ∧ ex_M.WellFormed ∧
    fmat_weight ex_M23 ex_M = .ok ⟨2, 3, [0, 3], [1, 4, 3, 4, 10, 6]⟩ ∧
    ((∃ s', fmat_weight ex_M23 ex_M = .ok s' ∧ s'.height = ex_M23.height ∧
      s'.length = ex_M23.length ∧
      ∀ i j, i < ex_M23.height → j < ex_M23.length →
        fmat_get_sample s' i j =
          .ok (if j < MIN ex_M23.length ex_M.length then ex_M23.at i j * ex_M.at 0 j
            else ex_M23.at i j)) ∧
    (∀ w2 : fmat_t ℤ, w2.WellFormed →
      MIN ex_M23.length w2.length = MIN ex_M23.length ex_M.length →
      (∀ j, j < MIN ex_M23.length ex_M.length → w2.at 0 j = ex_M.at 0 j) →
      fmat_weight ex_M23 w2 = fmat_weight ex_M23 ex_M)) :=
  ⟨by decide, by decide, rfl, fmat_weight_spec ex_M23 ex_M (by decide) (by decide)⟩

/-- C16.  For a well-formed matrix `s` and valid `channel`, `position`,
`fmat_set_sample` ends normally and keeps `height` and `length`; afterwards
`fmat_get_sample` returns `data` at `(channel, position)` and, at every other
valid position, what it returned before the write. -/
theorem fmat_set_sample_spec {R : Type} (s : fmat_t R) (data : R) (hs : s.WellFormed)
    (channel position : Nat) (hc : channel < s.height) (hp : position < s.length) :
    ∃ s', fmat_set_sample s data channel position = .ok s' ∧
      s'.height = s.height ∧ s'.length = s.length ∧
      fmat_get_sample s' channel position = .ok data ∧
      ∀ channel' position', channel' < s.height → position' < s.length →
        (channel' ≠ channel ∨ position' ≠ position) →
        fmat_get_sample s' channel' position' = fmat_get_sample s channel' position' := by
  have hsh : SameShape s { s with buf := s.buf.set (channel * s.length + position) data } :=
    ⟨rfl, rfl, rfl, by simp⟩
  refine ⟨_, fmat_set_sample_run s data hs hc hp, rfl, rfl, ?_, fun c' p' hc' hp' hne => ?_⟩
  · exact hsh.get_sample_ok hs hc (List.getElem?_set_self (hs.idx_lt hc hp))
  · rw [fmat_get_sample_eq hs hc' hp']
    apply hsh.get_sample_ok hs hc'
    show (s.buf.set _ _)[c' * s.length + p']? = _
    have hidx : channel * s.length + position ≠ c' * s.length + p' := by
      intro heq
      have := flat_index_inj hp hp' heq
      omega
    rw [List.getElem?_set_ne hidx, List.getElem?_eq_getElem (hs.idx_lt hc' hp')]
    rfl

/-- C16 at the 2 x 3 matrix `[[1,2,3],[4,5,6]]`, writing `7` at `(1, 1)`. -/
theorem fmat_set_sample_spec_witness :
    ex_M23.WellFormed ∧ 1 < ex_M23.height ∧ 1 < ex_M23.length ∧
    fmat_set_sample ex_M23 7 1 1 = .ok ⟨2, 3, [0, 3], [1, 2, 3, 4, 7, 6]⟩ ∧
    ∃ s', fmat_set_sample ex_M23 7 1 1 = .ok s' ∧
      s'.height = ex_M23.height ∧ s'.length = ex_M23.length ∧
      fmat_get_sample s' 1 1 = .ok 7 ∧
      ∀ channel' position', channel' < ex_M23.height → position' < ex_M23.length →
        (channel' ≠ 1 ∨ position' ≠ 1) →
        fmat_get_sample s' channel' position' = fmat_get_sample ex_M23 channel' position' :=
  ⟨by decide, by decide, by decide, rfl,
    fmat_set_sample_spec ex_M23 7 (by decide) 1 1 (by decide) (by decide)⟩

/-- C17.  For a well-formed matrix `s` and `channel < height`,
`fmat_get_channel` ends normally and makes `output` a view of length
`s.length` whose sample `j` is what `fmat_get_sample` reads at `(channel, j)`,
for every `j < s.length`, whatever `output` was before.  The matrix is a
read-only argument. -/
theorem fmat_get_channel_spec {R : Type} [Zero R] (s : fmat_t R) (output : fvec_t R)
    (hs : s.WellFormed) (channel : Nat) (hc : channel < s.height) :
    ∃ o', fmat_get_channel s channel output = .ok o' ∧ o'.length = s.length ∧
      ∀ j, j < s.length →
        rd o'.data j = fmat_get_sample s channel j ∧
        fmat_get_sample s channel j = .ok (s.at channel j) := by
  refine ⟨_, fmat_get_channel_run s output hs hc, rfl, fun j hj => ⟨?_, hs.get_sample hc hj⟩⟩
  rw [fmat_get_sample_eq hs hc hj]
  apply rd_eq_ok
  show (s.buf.drop (channel * s.length))[j]? = _
  rw [List.getElem?_drop, List.getElem?_eq_getElem (hs.idx_lt hc hj)]
  rfl

/-- C17 at row 1 of the 2 x 3 matrix `[[1,2,3],[4,5,6]]`: the view is
`[4,5,6]`. -/
theorem fmat_get_channel_spec_witness :
    ex_M23.WellFormed ∧ 1 < ex_M23.height ∧
    fmat_get_channel ex_M23 1 ex_out = .ok ⟨3, [4, 5, 6]⟩ ∧
    ∃ o', fmat_get_channel ex_M23 1 ex_out = .ok o' ∧ o'.length = ex_M23.length ∧
      ∀ j, j < ex_M23.length →
        rd o'.data j = fmat_get_sample ex_M23 1 j ∧
        fmat_get_sample ex_M23 1 j = .ok (ex_M23.at 1 j) :=
  ⟨by decide, by decide, rfl, fmat_get_channel_spec ex_M23 ex_out (by decide) 1 (by decide)⟩

/-! ## Assertions -/

/-- A violated dimension precondition fails the assertion of every branch
that carries one, before anything is written. -/
theorem assert_fails_of_violation {R : Type} [CommRing R]
    (s a b c : fmat_t R) (scale output : fvec_t R) :
    ((s.height ≠ output.length ∨ s.length ≠ scale.length) →
      fmat_vecmul_reference true s scale output = .error .assert_failed) ∧
    ((s.height ≠ scale.length ∨ s.length ≠ output.length) →
      fvec_matmul_reference true scale s output = .error .assert_failed ∧
      fvec_matmul_accelerate true scale s output = .error .assert_failed) ∧
    ((a.height ≠ c.height ∨ a.length ≠ b.height ∨ b.length ≠ c.length) →
      fmat_matmul_reference true a b c = .error .assert_failed) := by
  refine ⟨fun h => ?_, fun h => ⟨?_, ?_⟩, fun h => ?_⟩
  · unfold fmat_vecmul_reference
    by_cases h1 : s.height = output.length
    · have h2 : s.length ≠ scale.length := by tauto
      simp [AUBIO_ASSERT, h1, h2, bind, Except.bind]
    · simp [AUBIO_ASSERT, h1, bind, Except.bind]
  · unfold fvec_matmul_reference
    by_cases h1 : s.height = scale.length
    · have h2 : s.length ≠ output.length := by tauto
      simp [AUBIO_ASSERT, h1, h2, bind, Except.bind]
    · simp [AUBIO_ASSERT, h1, bind, Except.bind]
  · unfold fvec_matmul_accelerate
    by_cases h1 : s.height = scale.length
    · have h2 : s.length ≠ output.length := by tauto
      simp [AUBIO_ASSERT, h1, h2, bind, Except.bind]
    · simp [AUBIO_ASSERT, h1, bind, Except.bind]
  · unfold fmat_matmul_reference
    by_cases h1 : a.height = c.height
    · by_cases h2 : a.length = b.height
      · have h3 : b.length ≠ c.length := by tauto
        simp [AUBIO_ASSERT, h1, h2, h3, bind, Except.bind]
      · simp [AUBIO_ASSERT, h1, h2, bind, Except.bind]
    · simp [AUBIO_ASSERT, h1, bind, Except.bind]

/-- On well-formed operands the reference branches fail their assertion
exactly when a dimension precondition is violated. -/
theorem reference_assert_iff {R : Type} [CommRing R]
    (s a b c : fmat_t R) (scale output : fvec_t R)
    (hs : s.WellFormed) (ha : a.WellFormed) (hb : b.WellFormed) (hc : c.WellFormed)
    (hscale : scale.WellFormed) (hout : output.WellFormed) :
    (fmat_vecmul_reference true s scale output = .error .assert_failed ↔
      (s.height ≠ output.length ∨ s.length ≠ scale.length)) ∧
    (fvec_matmul_reference true scale s output = .error .assert_failed ↔
      (s.height ≠ scale.length ∨ s.length ≠ output.length)) ∧
    (fmat_matmul_reference true a b c = .error .assert_failed ↔
      (a.height ≠ c.height ∨ a.length ≠ b.height ∨ b.length ≠ c.length)) := by
  have hv := assert_fails_of_violation s a b c scale output
  refine ⟨⟨fun h => ?_, hv.1⟩, ⟨fun h => ?_, fun h' => (hv.2.1 h').1⟩, ⟨fun h => ?_, hv.2.2⟩⟩
  · by_contra hn
    have h1 : output.length = s.height := by by_contra h1; exact hn (Or.inl (Ne.symm h1))
    have h2 : scale.length = s.length := by by_contra h2; exact hn (Or.inr (Ne.symm h2))
    obtain ⟨o', hrun, _⟩ := fmat_vecmul_reference_run true s scale output hs hscale hout h1 h2
    rw [hrun] at h; cases h
  · by_contra hn
    have h1 : scale.length = s.height := by by_contra h1; exact hn (Or.inl (Ne.symm h1))
    have h2 : output.length = s.length := by by_contra h2; exact hn (Or.inr (Ne.symm h2))
    obtain ⟨o', hrun, _⟩ := fvec_matmul_reference_run true scale s output hs hscale hout h1 h2
    rw [hrun] at h; cases h
  · by_contra hn
    have h1 : a.height = c.height := by by_contra h1; exact hn (Or.inl h1)
    have h2 : a.length = b.height := by by_contra h2; exact hn (Or.inr (Or.inl h2))
    have h3 : b.length = c.length := by by_contra h3; exact hn (Or.inr (Or.inr h3))
    obtain ⟨c', hrun, _⟩ := fmat_matmul_reference_run true a b c ha hb hc h1 h2 h3
    rw [hrun] at h; cases h

/-! ## Results: the multiply family -/

/-- C18 fails on the code.  The two assertions of `fmat_vecmul` stand inside
its reference branch only.  With `M = [[1,2],[3,4]]`, `scale = [1,1]` and an
`output` of length 3 (so `M.height != output.length`) the reference branch
fails its assertion, while the `HAVE_ACCELERATE` branch asserts nothing, runs
to the end and writes `output[0]` and `output[1]`. -/
theorem fmat_vecmul_accelerate_no_assert :
    ex_M.WellFormed ∧ ex_scale.WellFormed ∧ ex_out3.WellFormed ∧
    ex_M.height ≠ ex_out3.length ∧
    fmat_vecmul_reference true ex_M ex_scale ex_out3 = .error .assert_failed ∧
    fmat_vecmul_accelerate ex_M ex_scale ex_out3 = .ok ⟨3, [3, 7, 9]⟩ :=
  ⟨by decide, by decide, by decide, by decide, rfl, rfl⟩

/-- C19.  Under their dimension preconditions and on well-formed operands
(whose cell count `height * length` fits `uint_t`), the reference
`fmat_vecmul`, `fvec_matmul` and `fmat_matmul` end normally, with or without
assertions: no bounds-checked access takes its error branch.  The flat
indices of `fmat_matmul` do not wrap and lie inside the buffers, and the
row and vector accesses of the other two lie inside theirs. -/
theorem reference_multiply_in_range {R : Type} [CommRing R] (dbg : Bool)
    (a b c s : fmat_t R) (scale output scale2 output2 : fvec_t R)
    (ha : a.WellFormed) (hb : b.WellFormed) (hc : c.WellFormed) (hs : s.WellFormed)
    (hscale : scale.WellFormed) (hout : output.WellFormed)
    (hscale2 : scale2.WellFormed) (hout2 : output2.WellFormed)
    (h1 : a.height = c.height) (h2 : a.length = b.height) (h3 : b.length = c.length)
    (h4 : output.length = s.height) (h5 : scale.length = s.length)
    (h6 : scale2.length = s.height) (h7 : output2.length = s.length) :
    (∃ c', fmat_matmul_reference dbg a b c = .ok c') ∧
    (∃ o', fmat_vecmul_reference dbg s scale output = .ok o') ∧
    (∃ o', fvec_matmul_reference dbg scale2 s output2 = .ok o') ∧
    (∀ i j k, i < c.height → j < c.length → k < a.length →
      (i * a.length + k) % UINT_MOD = i * a.length + k ∧
      i * a.length + k < a.height * a.length ∧ i * a.length + k < a.buf.length ∧
      (k * b.length + j) % UINT_MOD = k * b.length + j ∧
      k * b.length + j < b.height * b.length ∧ k * b.length + j < b.buf.length ∧
      (i * c.length + j) % UINT_MOD = i * c.length + j ∧
      i * c.length + j < c.height * c.length ∧ i * c.length + j < c.buf.length) ∧
    (∀ k j, k < s.height → j < s.length →
      rd s.data k = .ok (k * s.length) ∧ k * s.length + j < s.buf.length ∧
      j < scale.data.length ∧ k < output.data.length ∧
      k < scale2.data.length ∧ j < output2.data.length) := by
  obtain ⟨c', hr1, _⟩ := fmat_matmul_reference_run dbg a b c ha hb hc h1 h2 h3
  obtain ⟨o1, hr2, _⟩ := fmat_vecmul_reference_run dbg s scale output hs hscale hout h4 h5
  obtain ⟨o2, hr3, _⟩ := fvec_matmul_reference_run dbg scale2 s output2 hs hscale2 hout2 h6 h7
  refine ⟨⟨c', hr1⟩, ⟨o1, hr2⟩, ⟨o2, hr3⟩, fun i j k hi hj hk => ?_, fun k j hk hj => ?_⟩
  · have hia : i < a.height := by rw [h1]; exact hi
    have hkb : k < b.height := by rw [← h2]; exact hk
    have hjb : j < b.length := by rw [h3]; exact hj
    exact ⟨ha.idx_mod hia hk, flat_index_lt hia hk, ha.idx_lt hia hk,
      hb.idx_mod hkb hjb, flat_index_lt hkb hjb, hb.idx_lt hkb hjb,
      hc.idx_mod hi hj, flat_index_lt hi hj, hc.idx_lt hi hj⟩
  · refine ⟨hs.row hk, hs.idx_lt hk hj, ?_, ?_, ?_, ?_⟩
    · rw [hscale, h5]; exact hj
    · rw [hout, h4]; exact hk
    · rw [hscale2, h6]; exact hk
    · rw [hout2, h7]; exact hj

/-- C19 at 2 x 2 operands. -/
theorem reference_multiply_in_range_witness :
    ex_A.WellFormed ∧ ex_B.WellFormed ∧ ex_C.WellFormed ∧ ex_M.WellFormed ∧
    ex_scale.WellFormed ∧ ex_out.WellFormed ∧
    (∃ c', fmat_matmul_reference true ex_A ex_B ex_C = .ok c') ∧
    (∃ o', fmat_vecmul_reference true ex_M ex_scale ex_out = .ok o') ∧
    (∃ o', fvec_matmul_reference true ex_scale ex_M ex_out = .ok o') ∧
    (∀ i j k, i < ex_C.height → j < ex_C.length → k < ex_A.length →
      (i * ex_A.length + k) % UINT_MOD = i * ex_A.length + k ∧
      i * ex_A.length + k < ex_A.height * ex_A.length ∧
      i * ex_A.length + k < ex_A.buf.length ∧
      (k * ex_B.length + j) % UINT_MOD = k * ex_B.length + j ∧
      k * ex_B.length + j < ex_B.height * ex_B.length ∧
      k * ex_B.length + j < ex_B.buf.length ∧
      (i * ex_C.length + j) % UINT_MOD = i * ex_C.length + j ∧
      i * ex_C.length + j < ex_C.height * ex_C.length ∧
      i * ex_C.length + j < ex_C.buf.length) ∧
    (∀ k j, k < ex_M.height → j < ex_M.length →
      rd ex_M.data k = .ok (k * ex_M.length) ∧ k * ex_M.length + j < ex_M.buf.length ∧
      j < ex_scale.data.length ∧ k < ex_out.data.length ∧
      k < ex_scale.data.length ∧ j < ex_out.data.length) :=
  ⟨by decide, by decide, by decide, by decide, by decide, by decide,
    reference_multiply_in_range true ex_A ex_B ex_C ex_M ex_scale ex_out ex_scale ex_out
      (by decide) (by decide) (by decide) (by decide) (by decide) (by decide) (by decide)
      (by decide) rfl rfl rfl rfl rfl rfl rfl⟩

theorem fvec_t.at_of_data {R : Type} [Zero R] {v : fvec_t R} {k : Nat} {x : R}
    (h : v.data[k]? = some x) : v.at k = x := by
  unfold fvec_t.at
  rw [rd_eq_ok h]
  rfl

/-- C20.  For well-formed matrices `a` (h x m), `b` (m x n), `c` (h x n) and
vectors `x` (length n), `t` (length m), `y`, `y2` (length h), over a
commutative ring: `fmat_matmul(a, b, c)` followed by `fmat_vecmul(c, x, y)`
and `fmat_vecmul(b, x, t)` followed by `fmat_vecmul(a, t, y2)` all end
normally and leave the same vector in `y` and in `y2`. -/
theorem matmul_vecmul_compose {R : Type} [CommRing R] (dbg : Bool)
    (a b c : fmat_t R) (x t y y2 : fvec_t R)
    (ha : a.WellFormed) (hb : b.WellFormed) (hc : c.WellFormed)
    (hx : x.WellFormed) (ht : t.WellFormed) (hy : y.WellFormed) (hy2 : y2.WellFormed)
    (h1 : a.height = c.height) (h2 : a.length = b.height) (h3 : b.length = c.length)
    (hxl : x.length = b.length) (htl : t.length = b.height)
    (hyl : y.length = a.height) (hy2l : y2.length = a.height) :
    ∃ c' t' r, fmat_matmul_reference dbg a b c = .ok c' ∧
      fmat_vecmul_reference dbg c' x y = .ok r ∧
      fmat_vecmul_reference dbg b x t = .ok t' ∧
      fmat_vecmul_reference dbg a t' y2 = .ok r := by
  obtain ⟨c', hr1, hsh, hcv⟩ := fmat_matmul_reference_run dbg a b c ha hb hc h1 h2 h3
  have hc' := hsh.wellFormed hc
  obtain ⟨r, hr2, hrl, hrd, hrv⟩ := fmat_vecmul_reference_run dbg c' x y hc' hx hy
    (by rw [hsh.1, hyl, h1]) (by rw [hsh.2.1, hxl, h3])
  obtain ⟨t', hr3, htl', htd, htv⟩ := fmat_vecmul_reference_run dbg b x t hb hx ht htl hxl
  have ht' : t'.WellFormed := by
    show t'.data.length = t'.length
    rw [htd, htl']; exact ht
  obtain ⟨r2, hr4, hr2l, hr2d, hr2v⟩ := fmat_vecmul_reference_run dbg a t' y2 ha ht' hy2
    hy2l (by rw [htl', htl, h2])
  have heq : r2 = r := by
    apply fvec_t.ext_of (by rw [hr2l, hrl, hy2l, hyl])
    intro i
    by_cases hi : i < a.height
    · have hic : i < c.height := by rw [← h1]; exact hi
      rw [hr2v i hi, hrv i (by rw [hsh.1]; exact hic), hsh.2.1]
      congr 1
      have e1 : ∀ j, j ∈ Finset.range c.length →
          x.at j * c'.at i j = ∑ k in Finset.range a.length, x.at j * (a.at i k * b.at k j) := by
        intro j hj
        have hj' : j < c.length := Finset.mem_range.mp hj
        rw [hc'.at_of_cell (by rw [hsh.1]; exact hic) (by rw [hsh.2.1]; exact hj')
          (by rw [hsh.2.1]; exact hcv i j hic hj'), Finset.mul_sum]
      have e2 : ∀ k, k ∈ Finset.range a.length →
          t'.at k * a.at i k = ∑ j in Finset.range c.length, x.at j * (a.at i k * b.at k j) := by
        intro k hk
        have hk' : k < b.height := by rw [← h2]; exact Finset.mem_range.mp hk
        rw [fvec_t.at_of_data (htv k hk'), h3, Finset.sum_mul]
        apply Finset.sum_congr rfl
        intro j _
        ring
      rw [Finset.sum_congr rfl e1, Finset.sum_congr rfl e2, Finset.sum_comm]
    · rw [List.getElem?_eq_none (by rw [hr2d, hy2, hy2l]; omega),
        List.getElem?_eq_none (by rw [hrd, hy, hyl]; omega)]
  exact ⟨c', t', r, hr1, hr2, hr3, heq ▸ hr4⟩

/-- C20 at `A = [[1,2],[3,4]]`, `B = [[5,6],[7,8]]`, `x = [1,1]`: both orders
give `[41, 93]`. -/
theorem matmul_vecmul_compose_witness :
    ex_A.WellFormed ∧ ex_B.WellFormed ∧ ex_C.WellFormed ∧
    ex_scale.WellFormed ∧ ex_out.WellFormed ∧
    (fmat_matmul_reference true ex_A ex_B ex_C >>= fun c' =>
      fmat_vecmul_reference true c' ex_scale ex_out) = .ok ⟨2, [41, 93]⟩ ∧
    ∃ c' t' r, fmat_matmul_reference true ex_A ex_B ex_C = .ok c' ∧
      fmat_vecmul_reference true c' ex_scale ex_out = .ok r ∧
      fmat_vecmul_reference true ex_B ex_scale ex_out = .ok t' ∧
      fmat_vecmul_reference true ex_A t' ex_out = .ok r :=
  ⟨by decide, by decide, by decide, by decide, by decide, rfl,
    matmul_vecmul_compose true ex_A ex_B ex_C ex_scale ex_out ex_out ex_out
      (by decide) (by decide) (by decide) (by decide) (by decide) (by decide) (by decide)
      rfl rfl rfl rfl rfl rfl rfl⟩

end Aubio
